import Mathlib

/-!
Verification of the `pleaseai/mcp-please` MCP aggregation gateway against its
natural-language specification.

The development shallowly embeds the relevant TypeScript sources:

* `packages/core/src/search/strategies/bm25.ts` (BM25 and regex strategies),
* the embedding and hybrid strategies (`EmbeddingSearchStrategy`,
  `HybridSearchStrategy` with reciprocal rank fusion),
* `packages/core/src/index/storage.ts` (`IndexStorage.save`,
  `computeBM25Stats`),
* `packages/core/src/index/builder.ts` (`IndexBuilder.tokenize`,
  `STOP_WORDS`),
* `packages/mcp/src/utils/tool-deduplication.ts` (`mergeBM25Stats`),
* `packages/mcp/src/utils/index-regeneration.ts` (`checkIndexRegeneration`),
* `packages/mcp/src/utils/cli-usage.ts` (`getPlaceholder`,
  `buildExampleArgs`),
* `packages/mcp/src/utils/oauth/token-storage.ts` (`TokenStorage`).

Modelling conventions:

* JavaScript numbers are modelled as real numbers (`ℝ`); `Math.round(x)` is
  `⌊x + 1/2⌋` (JS rounds half toward positive infinity).
* JavaScript `Record<string, number>` maps read through `?? 0` / `|| 0` are
  modelled by their lookup function `String → ℕ` with default `0`.
* External effects (file system, clock, crypto digests, the compiled RegExp,
  the embedding provider) are passed in as explicit parameters.
* `Array.prototype.sort` with comparator `(a, b) => b.score - a.score` is
  modelled by an insertion sort that is descending in the score.
-/

/-! ### Shared data model (packages/core/src/types) -/

/-- The slice of a JSON-Schema property used by `cli-usage.ts`:
`{ type?, enum? }` (the `description` and `default` fields are never read). -/
structure JsonSchemaProperty where
  type : Option String := none
  enumVals : Option (List String) := none
deriving DecidableEq, Repr

/-- The slice of a tool input schema used by `cli-usage.ts`:
`{ properties?, required? }`.  The `properties` record is kept as an
insertion-ordered association list. -/
structure CliUsageJsonSchema where
  properties : Option (List (String × JsonSchemaProperty)) := none
  required : Option (List String) := none
deriving DecidableEq, Repr

/-- A tool definition (the fields read by the indexed components). -/
structure ToolDefinition where
  name : String
  title : Option String := none
  description : String := ""
  inputSchema : CliUsageJsonSchema := {}
deriving DecidableEq, Repr

/-- An indexed tool: the tool plus its precomputed search derivatives. -/
structure IndexedTool where
  tool : ToolDefinition
  searchableText : String := ""
  tokens : List String := []
  embedding : Option (List ℝ) := none

/-- A search result (`ToolReference` in `types/tool.ts`). -/
structure ToolReference where
  name : String
  title : Option String := none
  description : String := ""
  score : ℝ
  matchType : String

/-- Options passed to every strategy's `search`. -/
structure SearchOptions where
  topK : ℕ
  threshold : Option ℝ := none

/-- BM25 corpus statistics (`BM25Stats` in `storage.ts`).  The
`documentFrequencies` record is modelled by its lookup-with-default-0
function. -/
structure BM25Stats where
  avgDocLength : ℝ
  documentFrequencies : String → ℕ
  totalDocuments : ℕ

/-- The persisted index document (`PersistedIndex` in `storage.ts`). -/
structure PersistedIndex where
  version : String
  createdAt : String
  updatedAt : String
  totalTools : ℕ
  hasEmbeddings : Bool
  embeddingModel : Option String := none
  embeddingDimensions : Option ℕ := none
  bm25Stats : BM25Stats
  tools : List IndexedTool

/-- JS truthiness test `t.embedding && t.embedding.length > 0`. -/
def IndexedTool.hasEmbedding (t : IndexedTool) : Bool :=
  match t.embedding with
  | some e => e.length > 0
  | none => false

/-! ### JS `Math.round(x * 1000) / 1000` -/

/-- Round to three decimals the way every strategy does:
`Math.round(score * 1000) / 1000`; JS `Math.round x = ⌊x + 1/2⌋`. -/
noncomputable def round3 (x : ℝ) : ℝ := (⌊x * 1000 + 1 / 2⌋ : ℤ) / 1000

theorem round3_mono {x y : ℝ} (h : x ≤ y) : round3 x ≤ round3 y := by
  unfold round3
  have : (⌊x * 1000 + 1 / 2⌋ : ℤ) ≤ ⌊y * 1000 + 1 / 2⌋ := by
    apply Int.floor_le_floor
    nlinarith
  exact div_le_div_of_nonneg_right (by exact_mod_cast this) (by norm_num)

theorem round3_intCast (m : ℤ) : round3 ((m : ℝ) / 1000) = (m : ℝ) / 1000 := by
  unfold round3
  have h : (m : ℝ) / 1000 * 1000 + 1 / 2 = (m : ℝ) + 1 / 2 := by ring
  rw [h]
  have hfl : ⌊(m : ℝ) + 1 / 2⌋ = m := by
    rw [Int.floor_eq_iff]
    constructor
    · linarith
    · linarith
  rw [hfl]

theorem round3_one : round3 1 = 1 := by
  have h := round3_intCast 1000
  norm_num at h
  simpa using h

/-- `round3` produces an integer multiple of `1/1000`, hence is idempotent. -/
theorem round3_idem (x : ℝ) : round3 (round3 x) = round3 x := by
  unfold round3
  exact round3_intCast _

theorem one_le_round3 {x : ℝ} (h : 1 ≤ x) : 1 ≤ round3 x := by
  have := round3_mono h
  rw [round3_one] at this
  linarith

theorem round3_le_one {x : ℝ} (h : x ≤ 1) : round3 x ≤ 1 := by
  have := round3_mono h
  rw [round3_one] at this
  linarith

/-- Compute `round3 x` from bracketing bounds on `x * 1000 + 1/2`. -/
theorem round3_eq_of_bounds (x : ℝ) (m : ℤ) (h1 : (m : ℝ) ≤ x * 1000 + 1 / 2)
    (h2 : x * 1000 + 1 / 2 < (m : ℝ) + 1) : round3 x = (m : ℝ) / 1000 := by
  unfold round3
  have hfl : ⌊x * 1000 + 1 / 2⌋ = m := by
    rw [Int.floor_eq_iff]
    exact ⟨h1, by linarith⟩
  rw [hfl]

/-! ### Descending stable sort (`results.sort((a, b) => b.score - a.score)`) -/

/-- Insert `x` into a list sorted descending in `f`. -/
noncomputable def insertDescBy {α : Type} (f : α → ℝ) (x : α) : List α → List α
  | [] => [x]
  | y :: ys => if f y < f x then x :: y :: ys else y :: insertDescBy f x ys

/-- Sort descending in `f` (models JS `sort((a, b) => f b - f a)`). -/
noncomputable def sortDescBy {α : Type} (f : α → ℝ) : List α → List α
  | [] => []
  | x :: xs => insertDescBy f x (sortDescBy f xs)

theorem insertDescBy_perm {α : Type} (f : α → ℝ) (x : α) (l : List α) :
    List.Perm (insertDescBy f x l) (x :: l) := by
  induction l with
  | nil => simp [insertDescBy]
  | cons y ys ih =>
    unfold insertDescBy
    by_cases h : f y < f x
    · simp [h]
    · simp only [h, if_false]
      exact (ih.cons y).trans (List.Perm.swap x y ys)

theorem sortDescBy_perm {α : Type} (f : α → ℝ) (l : List α) :
    List.Perm (sortDescBy f l) l := by
  induction l with
  | nil => simp [sortDescBy]
  | cons x xs ih =>
    unfold sortDescBy
    exact (insertDescBy_perm f x (sortDescBy f xs)).trans (ih.cons x)

theorem insertDescBy_sorted {α : Type} (f : α → ℝ) (x : α) (l : List α)
    (h : l.Pairwise (fun a b => f b ≤ f a)) :
    (insertDescBy f x l).Pairwise (fun a b => f b ≤ f a) := by
  induction l with
  | nil => simp [insertDescBy]
  | cons y ys ih =>
    rw [List.pairwise_cons] at h
    obtain ⟨hy, hys⟩ := h
    unfold insertDescBy
    by_cases hcmp : f y < f x
    · simp only [hcmp, if_true]
      rw [List.pairwise_cons]
      refine ⟨?_, ?_⟩
      · intro b hb
        rcases List.mem_cons.mp hb with heq | hb'
        · subst heq
          exact le_of_lt hcmp
        · exact le_trans (hy _ hb') (le_of_lt hcmp)
      · rw [List.pairwise_cons]
        exact ⟨hy, hys⟩
    · simp only [hcmp, if_false]
      rw [List.pairwise_cons]
      refine ⟨?_, ih hys⟩
      intro b hb
      have hmem : b ∈ x :: ys := (insertDescBy_perm f x ys).mem_iff.mp hb
      rcases List.mem_cons.mp hmem with heq | hmem'
      · subst heq
        exact le_of_not_lt hcmp
      · exact hy _ hmem'

theorem sortDescBy_sorted {α : Type} (f : α → ℝ) (l : List α) :
    (sortDescBy f l).Pairwise (fun a b => f b ≤ f a) := by
  induction l with
  | nil => simp [sortDescBy]
  | cons x xs ih =>
    unfold sortDescBy
    exact insertDescBy_sorted f x _ ih

/-- The head of a descending-sorted list bounds every element of the
original list. -/
theorem sortDescBy_head_max {α : Type} (f : α → ℝ) (l : List α) (a : α)
    (rest : List α) (h : sortDescBy f l = a :: rest) :
    ∀ x ∈ l, f x ≤ f a := by
  intro x hx
  have hx' : x ∈ a :: rest := by
    rw [← h]
    exact ((sortDescBy_perm f l).symm.mem_iff).mp hx
  rcases List.mem_cons.mp hx' with heq | hmem
  · subst heq
    exact le_refl _
  · have hs := sortDescBy_sorted f l
    rw [h, List.pairwise_cons] at hs
    exact hs.1 _ hmem

/-- The sort applied to results compared on `.score`. -/
noncomputable def sortByScoreDesc : List ToolReference → List ToolReference :=
  sortDescBy (·.score)

/-- Results sorted descending by score (the common postcondition of all
search strategies). -/
def sortedDesc (l : List ToolReference) : Prop :=
  l.Pairwise (fun a b => b.score ≤ a.score)

/-! ### Tokenization (`packages/core/src/index/builder.ts`, duplicated
verbatim in `bm25.ts`) -/

/-- The stop-word set shared by `builder.ts` and `bm25.ts` (both files list
the same words, in the same order). -/
def STOP_WORDS : List String :=
  ["a", "an", "and", "are", "as", "at", "be", "by", "for", "from", "has",
   "he", "in", "is", "it", "its", "of", "on", "or", "that", "the", "to",
   "was", "were", "will", "with", "this", "which", "you", "your", "can",
   "could", "would", "should", "may", "might", "must", "shall", "into",
   "if", "then", "than", "so", "no", "not", "only", "own", "same", "such",
   "too", "very", "just", "but", "also"]

/-- JS regex `\s` (the ASCII whitespace characters plus the no-break and
BOM spaces; the exotic Unicode space separators are omitted — both the
replacement step and the split step use this same predicate, so the claims
are insensitive to the exact set). -/
def jsWhitespace (c : Char) : Bool :=
  c == ' ' || c == '\t' || c == '\n' || c == '\x0d' || c == '\x0b' ||
    c == '\x0c' || c == ' ' || c == '﻿'

/-- One character of `.replace(/[^a-z0-9\s]/g, ' ')` (applied after
`.toLowerCase()`). -/
def replaceChar (c : Char) : Char :=
  if ('a' ≤ c && c ≤ 'z') || ('0' ≤ c && c ≤ '9') || jsWhitespace c then c
  else ' '

/-- JS `.split(/\s+/)`: segments between maximal whitespace runs, keeping
the empty boundary segments (`" a ".split(/\s+/) = ["", "a", ""]`). -/
def splitRuns (l : List Char) : List (List Char) :=
  match h : l.dropWhile (fun c => !jsWhitespace c) with
  | [] => [l.takeWhile (fun c => !jsWhitespace c)]
  | c :: cs =>
    l.takeWhile (fun c => !jsWhitespace c) :: splitRuns ((c :: cs).dropWhile jsWhitespace)
termination_by l.length
decreasing_by
  have hc : jsWhitespace c = true := by
    have hw := List.head?_dropWhile_not (fun c => !jsWhitespace c) l
    rw [h] at hw
    simpa using hw
  have h1 : ((c :: cs).dropWhile jsWhitespace).length ≤ cs.length := by
    rw [List.dropWhile_cons_of_pos hc]
    exact (List.dropWhile_sublist _).length_le
  have h2 : (c :: cs).length ≤ l.length := by
    rw [← h]
    exact (List.dropWhile_sublist _).length_le
  simp only [List.length_cons] at h2
  omega

/-- The words of a character list: its maximal nonempty non-whitespace
segments, in order (the specification's reading of "split on
whitespace"). -/
def words (l : List Char) : List (List Char) :=
  match l with
  | [] => []
  | c :: cs =>
    if jsWhitespace c then words cs
    else (c :: cs.takeWhile (fun d => !jsWhitespace d)) :: words (cs.dropWhile (fun d => !jsWhitespace d))
termination_by l.length
decreasing_by
  · simp
  · have := (List.dropWhile_sublist (l := cs) (fun d => !jsWhitespace d)).length_le
    simp only [List.length_cons]
    omega

/-- `IndexBuilder.tokenize` (builder.ts lines 170–179): lowercase, replace
every character outside `[a-z0-9\s]` by a space, split on `\s+`, keep the
tokens of length `> 1` that are not stop words. -/
def IndexBuilder.tokenize (text : String) : List String :=
  ((splitRuns ((text.data.map Char.toLower).map replaceChar)).map (fun cs => String.mk cs)).filter
    (fun token => decide (1 < token.length) && !(STOP_WORDS.contains token))

theorem splitRuns_eq_single (l : List Char)
    (h : l.dropWhile (fun x => !jsWhitespace x) = []) :
    splitRuns l = [l.takeWhile (fun x => !jsWhitespace x)] := by
  rw [splitRuns]
  split
  · rfl
  · rename_i c cs hcons
    rw [h] at hcons
    exact absurd hcons (List.cons_ne_nil _ _).symm

theorem splitRuns_eq_cons (l : List Char) (c : Char) (cs : List Char)
    (h : l.dropWhile (fun x => !jsWhitespace x) = c :: cs) :
    splitRuns l = l.takeWhile (fun x => !jsWhitespace x) ::
      splitRuns ((c :: cs).dropWhile jsWhitespace) := by
  rw [splitRuns]
  split
  · rename_i hnil
    rw [h] at hnil
    exact absurd hnil (List.cons_ne_nil _ _)
  · rename_i d ds hcons
    rw [h] at hcons
    cases hcons
    rfl

theorem splitRuns_nil : splitRuns [] = [[]] := by
  rw [splitRuns_eq_single] <;> simp

theorem splitRuns_cons_ws (c : Char) (cs : List Char) (hc : jsWhitespace c = true) :
    splitRuns (c :: cs) = [] :: splitRuns (cs.dropWhile jsWhitespace) := by
  have hneg : ¬ ((fun x => !jsWhitespace x) c = true) := by simp [hc]
  rw [splitRuns_eq_cons (c :: cs) c cs
      (List.dropWhile_cons_of_neg (p := fun x => !jsWhitespace x) hneg),
    List.takeWhile_cons_of_neg (p := fun x => !jsWhitespace x) hneg,
    List.dropWhile_cons_of_pos (p := jsWhitespace) hc]

theorem words_nil : words [] = [] := by
  rw [words]

theorem words_cons_ws (c : Char) (cs : List Char) (hc : jsWhitespace c = true) :
    words (c :: cs) = words cs := by
  rw [words]
  simp [hc]

theorem words_cons_not_ws (c : Char) (cs : List Char) (hc : ¬ jsWhitespace c = true) :
    words (c :: cs) = (c :: cs.takeWhile (fun d => !jsWhitespace d)) ::
      words (cs.dropWhile (fun d => !jsWhitespace d)) := by
  rw [words]
  simp [hc]

/-- Dropping leading whitespace only removes empty segments from the
split. -/
theorem splitRuns_dropWhile_filter (l : List Char) :
    (splitRuns (l.dropWhile jsWhitespace)).filter (fun cs => !cs.isEmpty) =
      (splitRuns l).filter (fun cs => !cs.isEmpty) := by
  induction l with
  | nil => simp
  | cons c cs ih =>
    by_cases hc : jsWhitespace c = true
    · rw [List.dropWhile_cons_of_pos (p := jsWhitespace) hc, splitRuns_cons_ws c cs hc]
      simp
    · rw [List.dropWhile_cons_of_neg hc]

/-- The nonempty segments of the JS `/\s+/` split are exactly the maximal
non-whitespace words. -/
theorem filter_splitRuns_eq_words (l : List Char) :
    (splitRuns l).filter (fun cs => !cs.isEmpty) = words l := by
  suffices h : ∀ n (l : List Char), l.length = n →
      (splitRuns l).filter (fun cs => !cs.isEmpty) = words l from h l.length l rfl
  intro n
  induction n using Nat.strong_induction_on with
  | _ n ih =>
    intro l hn
    match l with
    | [] => simp [splitRuns_nil, words_nil]
    | c :: cs =>
      subst hn
      by_cases hc : jsWhitespace c = true
      · rw [splitRuns_cons_ws c cs hc, words_cons_ws c cs hc]
        have h1 : (splitRuns (cs.dropWhile jsWhitespace)).filter (fun cs => !cs.isEmpty) =
            words cs := by
          rw [splitRuns_dropWhile_filter cs]
          exact ih cs.length (by simp) cs rfl
        simpa using h1
      · have hcb : (fun x => !jsWhitespace x) c = true := by simp [hc]
        have hdrop : (c :: cs).dropWhile (fun x => !jsWhitespace x) =
            cs.dropWhile (fun x => !jsWhitespace x) :=
          List.dropWhile_cons_of_pos (p := fun x => !jsWhitespace x) hcb
        have htake : (c :: cs).takeWhile (fun x => !jsWhitespace x) =
            c :: cs.takeWhile (fun x => !jsWhitespace x) :=
          List.takeWhile_cons_of_pos (p := fun x => !jsWhitespace x) hcb
        rw [words_cons_not_ws c cs hc]
        match hrest : cs.dropWhile (fun x => !jsWhitespace x) with
        | [] =>
          rw [splitRuns_eq_single (c :: cs) (by rw [hdrop, hrest]), htake, words_nil]
          simp
        | d :: ds =>
          rw [splitRuns_eq_cons (c :: cs) d ds (by rw [hdrop, hrest]), htake]
          have h1 : (splitRuns ((d :: ds).dropWhile jsWhitespace)).filter
              (fun cs => !cs.isEmpty) = words (d :: ds) := by
            rw [← hrest, splitRuns_dropWhile_filter]
            have hlen : (cs.dropWhile (fun x => !jsWhitespace x)).length ≤ cs.length :=
              (List.dropWhile_sublist _).length_le
            exact ih (cs.dropWhile (fun x => !jsWhitespace x)).length
              (by simp only [List.length_cons]; omega) _ rfl
          simp only [List.filter_cons, List.isEmpty_cons, Bool.not_false, if_true]
          exact congrArg _ h1

/-- C7: the claim's "52-entry English stop-word set" miscounts the set in
`builder.ts` (and its verbatim copy in `bm25.ts`): the `STOP_WORDS` set has
54 distinct entries. -/
theorem c7_counterexample : STOP_WORDS.length = 54 ∧ STOP_WORDS.Nodup ∧ (54 : ℕ) ≠ 52 := by
  refine ⟨by decide, by decide, by decide⟩

/-- C7 (amended: the stop-word set has 54 entries, not 52): an indexed
tool's tokens are computed from its searchable text by lowercasing,
replacing every character outside `[a-z0-9]` and whitespace with a space,
splitting on whitespace, and dropping the tokens of length `< 2` and the
tokens in the fixed (54-entry, duplicate-free) English stop-word set, with
the order of the surviving tokens preserved. -/
theorem c7_tokenize_follows_spec :
    (∀ text : String, IndexBuilder.tokenize text =
      ((words ((text.data.map Char.toLower).map replaceChar)).map (fun cs => String.mk cs)).filter
        (fun token => decide (2 ≤ token.length ∧ token ∉ STOP_WORDS))) ∧
    STOP_WORDS.length = 54 ∧ STOP_WORDS.Nodup := by
  refine ⟨?_, by decide, by decide⟩
  intro text
  unfold IndexBuilder.tokenize
  have hPQ : ∀ t : String,
      (decide (1 < t.length) && !(STOP_WORDS.contains t)) =
        decide (2 ≤ t.length ∧ t ∉ STOP_WORDS) := by
    intro t
    have hlen : (2 ≤ t.length) = (1 < t.length) := propext (by omega)
    by_cases h1 : 1 < t.length <;> by_cases h2 : t ∈ STOP_WORDS <;>
      simp [h1, h2, hlen, List.contains, List.elem_iff]
  rw [List.filter_congr (fun t _ => hPQ t)]
  rw [← filter_splitRuns_eq_words]
  rw [List.filter_map, List.filter_map, List.filter_filter]
  congr 1
  apply List.filter_congr
  intro cs _
  by_cases hcs : cs.isEmpty
  · have : cs = [] := by simpa [List.isEmpty_iff] using hcs
    subst this
    simp [Function.comp, String.length]
  · simp [Function.comp, hcs]

/-! ### `IndexStorage.computeBM25Stats` (storage.ts lines 126–144; the
class-private `computeStats` in `bm25.ts` lines 183–201 is a verbatim
copy). -/

/-- Fold the document-frequency record over one document's unique tokens
and accumulate the total token count, exactly as the `for` loop does. -/
noncomputable def IndexStorage.computeBM25Stats (indexedTools : List IndexedTool) : BM25Stats :=
  let acc := indexedTools.foldl
    (fun (acc : (String → ℕ) × ℕ) indexed =>
      (indexed.tokens.dedup.foldl (fun f token => Function.update f token (f token + 1)) acc.1,
       acc.2 + indexed.tokens.length))
    (fun _ => 0, 0)
  { avgDocLength := if indexedTools.length > 0 then (acc.2 : ℝ) / (indexedTools.length : ℝ) else 0
    documentFrequencies := acc.1
    totalDocuments := indexedTools.length }

/-! ### BM25 search strategy (`bm25.ts`) -/

/-- Term-frequency saturation parameter `k1 = 1.5`. -/
noncomputable def BM25SearchStrategy.k1 : ℝ := 1.5

/-- Document-length normalization parameter `b = 0.75`. -/
noncomputable def BM25SearchStrategy.b : ℝ := 0.75

/-- `calculateBM25Score` (bm25.ts lines 133–167).  The `termFreq` map built
by the counting loop is the multiset count of the token in the document;
`continue` on `tf = 0` contributes `0` to the sum. -/
noncomputable def BM25SearchStrategy.calculateBM25Score (stats : BM25Stats)
    (queryTokens : List String) (indexed : IndexedTool) : ℝ :=
  let docTokens := indexed.tokens
  let docLength : ℝ := docTokens.length
  let avgDocLength := stats.avgDocLength
  let totalDocs : ℝ := stats.totalDocuments
  (queryTokens.map (fun term =>
    let tf : ℝ := docTokens.count term
    if tf = 0 then 0
    else
      let df : ℝ := stats.documentFrequencies term
      let idf := Real.log ((totalDocs - df + 0.5) / (df + 0.5) + 1)
      let tfNorm := tf * (k1 + 1) / (tf + k1 * (1 - b + b * (docLength / avgDocLength)))
      idf * tfNorm)).sum

/-- The result-collection loop of `search` (bm25.ts lines 101–115): keep the
documents whose raw score is positive and at least the threshold, carrying
the raw score rounded to three decimals.  (`bm25.ts` tokenizes the query
with its own verbatim copy of `IndexBuilder.tokenize`.) -/
noncomputable def BM25SearchStrategy.rawResults (stats : BM25Stats)
    (queryTokens : List String) (indexedTools : List IndexedTool)
    (threshold : ℝ) : List ToolReference :=
  indexedTools.filterMap (fun indexed =>
    let score := calculateBM25Score stats queryTokens indexed
    if 0 < score ∧ threshold ≤ score then
      some { name := indexed.tool.name, title := indexed.tool.title,
             description := indexed.tool.description, score := round3 score,
             matchType := "bm25" }
    else none)

/-- `Math.max(...results.map(r => r.score), 1)` (bm25.ts line 118): the
maximum of the collected scores, clamped below by `1`. -/
noncomputable def BM25SearchStrategy.maxScore (results : List ToolReference) : ℝ :=
  results.foldr (fun r m => max r.score m) 1

/-- `BM25SearchStrategy.search` (bm25.ts lines 89–124).  When no statistics
were injected via `setStats`, they are computed on the fly from the passed
documents. -/
noncomputable def BM25SearchStrategy.search (statsOpt : Option BM25Stats) (query : String)
    (indexedTools : List IndexedTool) (options : SearchOptions) : List ToolReference :=
  let stats := statsOpt.getD (IndexStorage.computeBM25Stats indexedTools)
  let queryTokens := IndexBuilder.tokenize query
  if queryTokens = [] then []
  else
    let results := rawResults stats queryTokens indexedTools (options.threshold.getD 0)
    let m := maxScore results
    let normalized := results.map (fun r => { r with score := round3 (r.score / m) })
    (sortByScoreDesc normalized).take options.topK

theorem BM25SearchStrategy.one_le_maxScore (results : List ToolReference) :
    1 ≤ BM25SearchStrategy.maxScore results := by
  induction results with
  | nil => simp [BM25SearchStrategy.maxScore]
  | cons r rs ih =>
    unfold BM25SearchStrategy.maxScore at ih ⊢
    simp only [List.foldr_cons]
    exact le_trans ih (le_max_right _ _)

theorem BM25SearchStrategy.score_le_maxScore (results : List ToolReference) :
    ∀ r ∈ results, r.score ≤ BM25SearchStrategy.maxScore results := by
  induction results with
  | nil => simp
  | cons a rs ih =>
    intro r hr
    unfold BM25SearchStrategy.maxScore
    simp only [List.foldr_cons]
    rcases List.mem_cons.mp hr with heq | hmem
    · subst heq
      exact le_max_left _ _
    · exact le_trans (ih r hmem) (le_max_right _ _)

theorem BM25SearchStrategy.maxScore_choice (results : List ToolReference) :
    BM25SearchStrategy.maxScore results = 1 ∨
      ∃ r ∈ results, r.score = BM25SearchStrategy.maxScore results := by
  induction results with
  | nil => left; simp [BM25SearchStrategy.maxScore]
  | cons a rs ih =>
    have hms : BM25SearchStrategy.maxScore (a :: rs) =
        max a.score (BM25SearchStrategy.maxScore rs) := by
      unfold BM25SearchStrategy.maxScore
      simp
    rcases max_choice a.score (BM25SearchStrategy.maxScore rs) with hmax | hmax
    · right
      exact ⟨a, List.mem_cons_self a rs, by rw [hms, hmax]⟩
    · rcases ih with h1 | ⟨r, hr, hrs⟩
      · left
        rw [hms, hmax, h1]
      · right
        exact ⟨r, List.mem_cons_of_mem _ hr, by rw [hms, hmax, hrs]⟩

theorem BM25SearchStrategy.calculateBM25Score_nil (stats : BM25Stats) (d : IndexedTool) :
    BM25SearchStrategy.calculateBM25Score stats [] d = 0 := by
  simp [BM25SearchStrategy.calculateBM25Score]

theorem BM25SearchStrategy.mem_rawResults {stats : BM25Stats} {qt : List String}
    {docs : List IndexedTool} {th : ℝ} {r : ToolReference} :
    r ∈ BM25SearchStrategy.rawResults stats qt docs th ↔ ∃ d ∈ docs,
      (0 < BM25SearchStrategy.calculateBM25Score stats qt d ∧
        th ≤ BM25SearchStrategy.calculateBM25Score stats qt d) ∧
      r = { name := d.tool.name, title := d.tool.title,
            description := d.tool.description,
            score := round3 (BM25SearchStrategy.calculateBM25Score stats qt d),
            matchType := "bm25" } := by
  unfold BM25SearchStrategy.rawResults
  rw [List.mem_filterMap]
  constructor
  · rintro ⟨d, hd, hfd⟩
    by_cases hcond : 0 < BM25SearchStrategy.calculateBM25Score stats qt d ∧
        th ≤ BM25SearchStrategy.calculateBM25Score stats qt d
    · rw [if_pos hcond] at hfd
      exact ⟨d, hd, hcond, (Option.some_inj.mp hfd).symm⟩
    · rw [if_neg hcond] at hfd
      exact absurd hfd (Option.noConfusion)
  · rintro ⟨d, hd, hcond, rfl⟩
    exact ⟨d, hd, by rw [if_pos hcond]⟩

theorem sortByScoreDesc_perm (l : List ToolReference) :
    List.Perm (sortByScoreDesc l) l := sortDescBy_perm _ l

theorem sortByScoreDesc_sorted (l : List ToolReference) : sortedDesc (sortByScoreDesc l) := by
  unfold sortedDesc sortByScoreDesc
  exact sortDescBy_sorted _ l

theorem sortByScoreDesc_head_max (l : List ToolReference) (a : ToolReference)
    (rest : List ToolReference) (h : sortByScoreDesc l = a :: rest) :
    ∀ x ∈ l, x.score ≤ a.score := by
  unfold sortByScoreDesc at h
  exact sortDescBy_head_max _ l a rest h

/-- C1 (amended): for the BM25 strategy, documents with nonpositive (or
below-threshold) raw score are dropped; each returned score is the raw BM25
score rounded to three decimals, divided by the larger of 1 and the maximum
rounded raw score (`Math.max(...scores, 1)`), rounded again; and whenever
some document's rounded raw score reaches 1 (and `topK ≥ 1`), the top-ranked
result has score exactly 1.0.  (The claim's unclamped "divide by the maximum
observed raw score, so the top result has score 1.0" fails when every raw
score is below 1 — see the counterexample.) -/
theorem c1_bm25_normalization (stats : BM25Stats) (query : String)
    (docs : List IndexedTool) (opts : SearchOptions)
    (h1 : ∃ r ∈ BM25SearchStrategy.rawResults stats (IndexBuilder.tokenize query) docs
        (opts.threshold.getD 0), 1 ≤ r.score)
    (h2 : 1 ≤ opts.topK) :
    (∀ r ∈ BM25SearchStrategy.search (some stats) query docs opts,
      ∃ d ∈ docs,
        0 < BM25SearchStrategy.calculateBM25Score stats (IndexBuilder.tokenize query) d ∧
        r.score = round3 (round3 (BM25SearchStrategy.calculateBM25Score stats
            (IndexBuilder.tokenize query) d) /
          BM25SearchStrategy.maxScore (BM25SearchStrategy.rawResults stats
            (IndexBuilder.tokenize query) docs (opts.threshold.getD 0)))) ∧
    ∃ hd tl, BM25SearchStrategy.search (some stats) query docs opts = hd :: tl ∧
      hd.score = 1 := by
  classical
  set qt := IndexBuilder.tokenize query with hqt
  set th := opts.threshold.getD 0 with hth
  set raw := BM25SearchStrategy.rawResults stats qt docs th with hraw
  set M := BM25SearchStrategy.maxScore raw with hM
  have hqt_ne : ¬ (qt = []) := by
    intro h0
    obtain ⟨r, hr, _⟩ := h1
    obtain ⟨d, _, ⟨hpos, _⟩, _⟩ := BM25SearchStrategy.mem_rawResults.mp hr
    rw [h0, BM25SearchStrategy.calculateBM25Score_nil] at hpos
    exact lt_irrefl _ hpos
  set normalized := raw.map (fun r => { r with score := round3 (r.score / M) })
    with hnorm
  have hsearch : BM25SearchStrategy.search (some stats) query docs opts =
      (sortByScoreDesc normalized).take opts.topK := by
    rw [BM25SearchStrategy.search]
    rw [if_neg hqt_ne]
    rfl
  have hM1 : 1 ≤ M := BM25SearchStrategy.one_le_maxScore raw
  have hMpos : 0 < M := lt_of_lt_of_le one_pos hM1
  obtain ⟨rstar, hrstar_mem, hrstar_eq⟩ : ∃ r ∈ raw, r.score = M := by
    rcases BM25SearchStrategy.maxScore_choice raw with hc | hc
    · obtain ⟨r0, hr0, hr0score⟩ := h1
      refine ⟨r0, hr0, le_antisymm (BM25SearchStrategy.score_le_maxScore raw r0 hr0) ?_⟩
      rw [← hM] at hc
      rw [hc]
      exact hr0score
    · exact hc
  have hle1 : ∀ x ∈ normalized, x.score ≤ 1 := by
    intro x hx
    obtain ⟨r, hr, rfl⟩ := List.mem_map.mp hx
    apply round3_le_one
    rw [div_le_one hMpos]
    exact BM25SearchStrategy.score_le_maxScore raw r hr
  have hsone : ∃ x ∈ normalized, x.score = 1 := by
    refine ⟨_, List.mem_map_of_mem _ hrstar_mem, ?_⟩
    show round3 (rstar.score / M) = 1
    rw [hrstar_eq, div_self (ne_of_gt hMpos), round3_one]
  obtain ⟨x1, hx1mem, hx1⟩ := hsone
  have hnne : normalized ≠ [] := List.ne_nil_of_mem hx1mem
  obtain ⟨hd, tl, hsort⟩ : ∃ hd tl, sortByScoreDesc normalized = hd :: tl := by
    cases hsq : sortByScoreDesc normalized with
    | nil =>
      exfalso
      have hperm : List.Perm (sortByScoreDesc normalized) normalized :=
        sortDescBy_perm _ normalized
      rw [hsq] at hperm
      exact hnne hperm.nil_eq.symm
    | cons a b => exact ⟨a, b, rfl⟩
  have hhd_mem : hd ∈ normalized := by
    have : hd ∈ sortByScoreDesc normalized := by
      rw [hsort]
      exact List.mem_cons_self hd tl
    exact (sortDescBy_perm _ normalized).mem_iff.mp this
  have hhd1 : hd.score = 1 := by
    refine le_antisymm (hle1 hd hhd_mem) ?_
    have hmax := sortByScoreDesc_head_max normalized hd tl hsort x1 hx1mem
    rw [hx1] at hmax
    exact hmax
  constructor
  · intro r hr
    rw [hsearch] at hr
    have hr' : r ∈ sortByScoreDesc normalized := List.take_subset _ _ hr
    have hr'' : r ∈ normalized := (sortDescBy_perm _ normalized).mem_iff.mp hr'
    obtain ⟨q, hq, rfl⟩ := List.mem_map.mp hr''
    obtain ⟨d, hd_mem, ⟨hpos, _⟩, rfl⟩ := BM25SearchStrategy.mem_rawResults.mp hq
    exact ⟨d, hd_mem, hpos, rfl⟩
  · refine ⟨hd, tl.take (opts.topK - 1), ?_, hhd1⟩
    rw [hsearch, hsort]
    obtain ⟨n, hn⟩ : ∃ n, opts.topK = n + 1 := ⟨opts.topK - 1, by omega⟩
    rw [hn]
    simp

/-- A one-token document used by the concrete search evaluations. -/
def helloDoc : IndexedTool := { tool := { name := "hello-tool" }, tokens := ["hello"] }

/-- `topK = 5`, no threshold. -/
def cOpts : SearchOptions := { topK := 5, threshold := none }

/-- Statistics making the query term score `log 202 > 1`. -/
noncomputable def witnessStats : BM25Stats :=
  { avgDocLength := 1, documentFrequencies := fun _ => 0, totalDocuments := 100 }

/-- Statistics making the query term score `log (4/3) < 1`. -/
noncomputable def ceStats : BM25Stats :=
  { avgDocLength := 1, documentFrequencies := fun t => if t = "hello" then 1 else 0,
    totalDocuments := 1 }

theorem tokenize_hello : IndexBuilder.tokenize "hello" = ["hello"] := by
  unfold IndexBuilder.tokenize
  rw [splitRuns_eq_single _ (by decide)]
  decide

theorem calc_witnessStats :
    BM25SearchStrategy.calculateBM25Score witnessStats ["hello"] helloDoc = Real.log 202 := by
  unfold BM25SearchStrategy.calculateBM25Score witnessStats helloDoc
  simp only [List.map_cons, List.map_nil, List.sum_cons, List.sum_nil]
  rw [if_neg (by norm_num [List.count_cons])]
  norm_num [List.count_cons, BM25SearchStrategy.k1, BM25SearchStrategy.b]

theorem calc_ceStats :
    BM25SearchStrategy.calculateBM25Score ceStats ["hello"] helloDoc = Real.log (4 / 3) := by
  unfold BM25SearchStrategy.calculateBM25Score ceStats helloDoc
  simp only [List.map_cons, List.map_nil, List.sum_cons, List.sum_nil]
  rw [if_neg (by norm_num [List.count_cons])]
  norm_num [List.count_cons, BM25SearchStrategy.k1, BM25SearchStrategy.b]

theorem one_le_log_202 : 1 ≤ Real.log 202 := by
  rw [Real.le_log_iff_exp_le (by norm_num : (0:ℝ) < 202)]
  have h := Real.exp_one_lt_d9
  linarith

/-- C1 witness: a corpus where the query term reaches rounded raw score
`≥ 1`, so the amended normalization theorem applies. -/
theorem c1_bm25_normalization_witness :
    (∃ r ∈ BM25SearchStrategy.rawResults witnessStats (IndexBuilder.tokenize "hello")
        [helloDoc] (cOpts.threshold.getD 0), 1 ≤ r.score) ∧
    1 ≤ cOpts.topK ∧
    ((∀ r ∈ BM25SearchStrategy.search (some witnessStats) "hello" [helloDoc] cOpts,
      ∃ d ∈ [helloDoc],
        0 < BM25SearchStrategy.calculateBM25Score witnessStats (IndexBuilder.tokenize "hello") d ∧
        r.score = round3 (round3 (BM25SearchStrategy.calculateBM25Score witnessStats
            (IndexBuilder.tokenize "hello") d) /
          BM25SearchStrategy.maxScore (BM25SearchStrategy.rawResults witnessStats
            (IndexBuilder.tokenize "hello") [helloDoc] (cOpts.threshold.getD 0)))) ∧
    ∃ hd tl, BM25SearchStrategy.search (some witnessStats) "hello" [helloDoc] cOpts = hd :: tl ∧
      hd.score = 1) := by
  have hpos : 0 < Real.log 202 := lt_of_lt_of_le one_pos one_le_log_202
  have h1 : ∃ r ∈ BM25SearchStrategy.rawResults witnessStats (IndexBuilder.tokenize "hello")
      [helloDoc] (cOpts.threshold.getD 0), 1 ≤ r.score := by
    rw [tokenize_hello]
    refine ⟨_, BM25SearchStrategy.mem_rawResults.mpr
      ⟨helloDoc, List.mem_singleton_self _, ⟨?_, ?_⟩, rfl⟩, ?_⟩
    · rw [calc_witnessStats]
      exact hpos
    · rw [calc_witnessStats]
      show (cOpts.threshold.getD 0) ≤ _
      simp only [cOpts, Option.getD_none]
      linarith
    · show 1 ≤ round3 (BM25SearchStrategy.calculateBM25Score witnessStats ["hello"] helloDoc)
      rw [calc_witnessStats]
      exact one_le_round3 one_le_log_202
  have h2 : 1 ≤ cOpts.topK := by norm_num [cOpts]
  exact ⟨h1, h2, c1_bm25_normalization witnessStats "hello" [helloDoc] cOpts h1 h2⟩

theorem log_fourThirds_lt_one_rounded : round3 (Real.log (4 / 3)) < 1 := by
  have h0 : (0:ℝ) < 4 / 3 := by norm_num
  have h13 : Real.log (4 / 3) ≤ 1 / 3 := by
    have h := Real.log_le_sub_one_of_pos h0
    linarith
  have hr13 : round3 ((1:ℝ) / 3) = ((333 : ℤ) : ℝ) / 1000 := by
    apply round3_eq_of_bounds
    · push_cast
      norm_num
    · push_cast
      norm_num
  have hle : round3 (Real.log (4 / 3)) ≤ ((333 : ℤ) : ℝ) / 1000 :=
    le_of_le_of_eq (round3_mono h13) hr13
  have : ((333 : ℤ) : ℝ) / 1000 < 1 := by norm_num
  linarith

/-- C1: the claim as stated is false.  With one document scoring
`log (4/3) ≈ 0.288 > 0`, the claim predicts the returned score list
`[raw / max] = [1]`; the code divides by `Math.max(maxScore, 1) = 1`, so
the single (top-ranked) returned score is `round3 (log (4/3)) < 1`. -/
theorem c1_counterexample :
    (∃ d ∈ [helloDoc], 0 < BM25SearchStrategy.calculateBM25Score ceStats
        (IndexBuilder.tokenize "hello") d) ∧
    (BM25SearchStrategy.search (some ceStats) "hello" [helloDoc] cOpts).map (·.score) ≠
      [1] := by
  have hpos : 0 < Real.log (4 / 3) := Real.log_pos (by norm_num)
  constructor
  · exact ⟨helloDoc, List.mem_singleton_self _, by rw [tokenize_hello, calc_ceStats]; exact hpos⟩
  · have hraw : BM25SearchStrategy.rawResults ceStats ["hello"] [helloDoc] (0:ℝ) =
        [{ name := "hello-tool", title := none, description := "",
           score := round3 (Real.log (4 / 3)), matchType := "bm25" }] := by
      unfold BM25SearchStrategy.rawResults
      simp only [List.filterMap_cons, List.filterMap_nil]
      rw [calc_ceStats]
      rw [if_pos ⟨hpos, le_of_lt hpos⟩]
      rfl
    have hkey : BM25SearchStrategy.search (some ceStats) "hello" [helloDoc] cOpts =
        [{ name := "hello-tool", title := none, description := "",
           score := round3 (Real.log (4 / 3)), matchType := "bm25" }] := by
      rw [BM25SearchStrategy.search]
      rw [if_neg (by rw [tokenize_hello]; simp)]
      show (sortByScoreDesc ((BM25SearchStrategy.rawResults ceStats
          (IndexBuilder.tokenize "hello") [helloDoc] (cOpts.threshold.getD 0)).map
            (fun r => { r with score := round3 (r.score / BM25SearchStrategy.maxScore
              (BM25SearchStrategy.rawResults ceStats (IndexBuilder.tokenize "hello")
                [helloDoc] (cOpts.threshold.getD 0))) }))).take cOpts.topK = _
      rw [tokenize_hello]
      have hth : cOpts.threshold.getD 0 = (0:ℝ) := rfl
      rw [hth, hraw]
      have hm : BM25SearchStrategy.maxScore
          [{ name := "hello-tool", title := none, description := "",
             score := round3 (Real.log (4 / 3)), matchType := "bm25" }] = 1 := by
        unfold BM25SearchStrategy.maxScore
        simp only [List.foldr_cons, List.foldr_nil]
        exact max_eq_right (le_of_lt log_fourThirds_lt_one_rounded)
      rw [hm]
      simp only [List.map_cons, List.map_nil, div_one, round3_idem]
      show (sortByScoreDesc [_]).take cOpts.topK = _
      unfold sortByScoreDesc sortDescBy
      rw [show sortDescBy (·.score) ([] : List ToolReference) = [] from rfl]
      unfold insertDescBy
      rfl
    rw [hkey]
    simp only [List.map_cons, List.map_nil, ne_eq, List.cons.injEq, and_true]
    intro hcontra
    exact absurd hcontra (ne_of_lt log_fourThirds_lt_one_rounded)

/-! ### `IndexStorage.save` (storage.ts lines 38–66) and
`mergeBM25Stats` (tool-deduplication.ts lines 60–93) -/

/-- The pure content of `IndexStorage.save`: the `PersistedIndex` document
it serializes (the two `new Date().toISOString()` reads and the file write
are external). -/
noncomputable def IndexStorage.save (indexedTools : List IndexedTool)
    (createdAt updatedAt : String) (embeddingModel : Option String)
    (embeddingDimensions : Option ℕ) : PersistedIndex :=
  { version := "1.0.0"
    createdAt := createdAt
    updatedAt := updatedAt
    totalTools := indexedTools.length
    hasEmbeddings := indexedTools.any (fun t => t.hasEmbedding)
    embeddingModel := embeddingModel
    embeddingDimensions := embeddingDimensions
    bm25Stats := IndexStorage.computeBM25Stats indexedTools
    tools := indexedTools }

/-- `mergeBM25Stats` (tool-deduplication.ts lines 60–93): the entry-merge
loop over `uStats.documentFrequencies` denotes the pointwise sum of the two
lookup functions. -/
noncomputable def mergeBM25Stats (projectIndex userIndex : Option PersistedIndex) :
    BM25Stats :=
  match projectIndex, userIndex with
  | none, none => { avgDocLength := 0, documentFrequencies := fun _ => 0, totalDocuments := 0 }
  | none, some u => u.bm25Stats
  | some p, none => p.bm25Stats
  | some p, some u =>
    let pStats := p.bm25Stats
    let uStats := u.bm25Stats
    let totalDocuments := pStats.totalDocuments + uStats.totalDocuments
    let totalLength := pStats.avgDocLength * (pStats.totalDocuments : ℝ) +
      uStats.avgDocLength * (uStats.totalDocuments : ℝ)
    { totalDocuments := totalDocuments
      avgDocLength := if totalDocuments > 0 then totalLength / (totalDocuments : ℝ) else 0
      documentFrequencies := fun term =>
        pStats.documentFrequencies term + uStats.documentFrequencies term }

theorem dfFold_count (l : List String) (f : String → ℕ) (t : String) :
    (l.foldl (fun g u => Function.update g u (g u + 1)) f) t = f t + l.count t := by
  induction l generalizing f with
  | nil => simp
  | cons u us ih =>
    simp only [List.foldl_cons]
    rw [ih]
    by_cases h : t = u
    · subst h
      simp [Function.update_same, List.count_cons]
      omega
    · rw [Function.update_noteq h]
      simp [List.count_cons, h]

theorem bmFold_df (tools : List IndexedTool) (f : String → ℕ) (n : ℕ) (t : String) :
    ((tools.foldl
      (fun (acc : (String → ℕ) × ℕ) indexed =>
        (indexed.tokens.dedup.foldl (fun g token => Function.update g token (g token + 1)) acc.1,
         acc.2 + indexed.tokens.length))
      (f, n)).1) t = f t + tools.countP (fun d => decide (t ∈ d.tokens)) := by
  induction tools generalizing f n with
  | nil => simp
  | cons d ds ih =>
    simp only [List.foldl_cons]
    rw [ih, dfFold_count, List.count_dedup, List.countP_cons]
    by_cases h : t ∈ d.tokens <;> simp [h] <;> omega

theorem bmFold_len (tools : List IndexedTool) (f : String → ℕ) (n : ℕ) :
    ((tools.foldl
      (fun (acc : (String → ℕ) × ℕ) indexed =>
        (indexed.tokens.dedup.foldl (fun g token => Function.update g token (g token + 1)) acc.1,
         acc.2 + indexed.tokens.length))
      (f, n)).2) = n + (tools.map (fun d => d.tokens.length)).sum := by
  induction tools generalizing f n with
  | nil => simp
  | cons d ds ih =>
    simp only [List.foldl_cons]
    rw [ih]
    simp
    omega

/-- C4: for every index written by `IndexStorage.save`, recomputing the BM25
statistics from the persisted `tools` array (total documents = number of
tools; average document length = average token count, `0` for an empty
index; the document frequency of `t` = number of tools whose unique-token
set contains `t`) yields exactly the stored `bm25Stats`. -/
theorem c4_save_bm25_consistent (indexedTools : List IndexedTool)
    (createdAt updatedAt : String) (em : Option String) (ed : Option ℕ) :
    (IndexStorage.save indexedTools createdAt updatedAt em ed).bm25Stats.totalDocuments =
      (IndexStorage.save indexedTools createdAt updatedAt em ed).tools.length ∧
    (IndexStorage.save indexedTools createdAt updatedAt em ed).bm25Stats.avgDocLength =
      (if (IndexStorage.save indexedTools createdAt updatedAt em ed).tools.length = 0 then 0
       else (((((IndexStorage.save indexedTools createdAt updatedAt em ed).tools.map
          (fun d => d.tokens.length)).sum : ℕ)) : ℝ) /
        (((IndexStorage.save indexedTools createdAt updatedAt em ed).tools.length : ℕ) : ℝ)) ∧
    ∀ t, (IndexStorage.save indexedTools createdAt updatedAt em ed).bm25Stats.documentFrequencies t =
      (IndexStorage.save indexedTools createdAt updatedAt em ed).tools.countP
        (fun d => decide (t ∈ d.tokens)) := by
  refine ⟨rfl, ?_, ?_⟩
  · show (IndexStorage.computeBM25Stats indexedTools).avgDocLength =
      (if indexedTools.length = 0 then 0
       else ((((indexedTools.map (fun d => d.tokens.length)).sum : ℕ)) : ℝ) /
         ((indexedTools.length : ℕ) : ℝ))
    unfold IndexStorage.computeBM25Stats
    dsimp only
    rw [bmFold_len]
    by_cases h : indexedTools.length = 0
    · rw [if_neg (by omega : ¬ indexedTools.length > 0), if_pos h]
    · rw [if_pos (by omega : indexedTools.length > 0), if_neg h]
      norm_num
  · intro t
    show (IndexStorage.computeBM25Stats indexedTools).documentFrequencies t =
      indexedTools.countP (fun d => decide (t ∈ d.tokens))
    unfold IndexStorage.computeBM25Stats
    dsimp only
    rw [bmFold_df]
    simp

/-- C5: when both a project and a user index are present, `mergeBM25Stats`
returns the sum of the two document counts, the document-count-weighted
average of the two average document lengths, and the pointwise sum of the
two document-frequency maps. -/
theorem c5_mergeBM25Stats_combines (P U : PersistedIndex) :
    (mergeBM25Stats (some P) (some U)).totalDocuments =
        P.bm25Stats.totalDocuments + U.bm25Stats.totalDocuments ∧
    (mergeBM25Stats (some P) (some U)).avgDocLength =
        (P.bm25Stats.avgDocLength * (P.bm25Stats.totalDocuments : ℝ) +
          U.bm25Stats.avgDocLength * (U.bm25Stats.totalDocuments : ℝ)) /
          ((P.bm25Stats.totalDocuments : ℝ) + (U.bm25Stats.totalDocuments : ℝ)) ∧
    ∀ term, (mergeBM25Stats (some P) (some U)).documentFrequencies term =
        P.bm25Stats.documentFrequencies term + U.bm25Stats.documentFrequencies term := by
  refine ⟨rfl, ?_, fun term => rfl⟩
  show (if P.bm25Stats.totalDocuments + U.bm25Stats.totalDocuments > 0 then _ else (0:ℝ)) = _
  by_cases h : P.bm25Stats.totalDocuments + U.bm25Stats.totalDocuments > 0
  · rw [if_pos h]
    push_cast
    ring_nf
  · rw [if_neg h]
    have h1 : P.bm25Stats.totalDocuments = 0 := by omega
    have h2 : U.bm25Stats.totalDocuments = 0 := by omega
    rw [h1, h2]
    norm_num

/-! ### Regex search strategy (second half of `bm25.ts`'s source file,
`RegexSearchStrategy`).  The compiled `RegExp` (including the
escape-and-retry fallback for invalid patterns) is external: it enters as a
`matcher` function returning `searchableText.match(regex)`, i.e. `none` for
a null match and the (nonempty) array of matched substrings otherwise. -/

/-- JS `String.prototype.toLowerCase` (character-wise). -/
def jsToLower (s : String) : String := String.mk (s.data.map Char.toLower)

/-- Search for the first index at which `sub` occurs, starting at `i`. -/
def firstIndexOfFrom (sub : List Char) : List Char → ℕ → Option ℕ
  | l, i =>
    if sub.isPrefixOf l then some i
    else
      match l with
      | [] => none
      | _ :: rest => firstIndexOfFrom sub rest (i + 1)

/-- JS `String.prototype.indexOf`: first occurrence index, `-1` if absent. -/
def jsIndexOf (s sub : String) : ℤ :=
  match firstIndexOfFrom sub.data s.data 0 with
  | some i => (i : ℤ)
  | none => -1

/-- `RegexSearchStrategy.calculateScore`: a bounded composite of density,
match count, position bonus and exact-match bonus, rounded to three
decimals. -/
noncomputable def RegexSearchStrategy.calculateScore (ms : List String)
    (text : String) (query : String) : ℝ :=
  let matchCount : ℝ := ms.length
  let matchLength : ℝ := (ms.map (fun m => (m.length : ℝ))).sum
  let density := matchLength / (text.length : ℝ)
  let firstMatchIndex : ℝ := (jsIndexOf (jsToLower text) (jsToLower (ms.headD "")) : ℤ)
  let positionBonus := 1 - firstMatchIndex / (text.length : ℝ)
  let exactMatchBonus : ℝ :=
    if ms.any (fun m => jsToLower m = jsToLower query) then 0.3 else 0
  round3 (min 1 (density * 2 + matchCount * 0.1 + positionBonus * 0.2 + exactMatchBonus))

/-- `RegexSearchStrategy.search`. -/
noncomputable def RegexSearchStrategy.search (matcher : String → Option (List String))
    (query : String) (indexedTools : List IndexedTool) (options : SearchOptions) :
    List ToolReference :=
  let results := indexedTools.filterMap (fun indexed =>
    match matcher indexed.searchableText with
    | none => none
    | some ms =>
      let score := RegexSearchStrategy.calculateScore ms indexed.searchableText query
      if options.threshold.getD 0 ≤ score then
        some { name := indexed.tool.name, title := indexed.tool.title,
               description := indexed.tool.description, score := score,
               matchType := "regex" }
      else none)
  (sortByScoreDesc results).take options.topK

/-! ### Embedding search strategy (`EmbeddingSearchStrategy`).  The
provider call `embed(query)` is external: the query embedding is a
parameter. -/

/-- `cosineSimilarity` with its two failure/zero guards. -/
noncomputable def EmbeddingSearchStrategy.cosineSimilarity (a b : List ℝ) :
    Except String ℝ :=
  if a.length ≠ b.length then
    .error ("Vector dimension mismatch: " ++ toString a.length ++ " vs " ++ toString b.length)
  else
    let dotProduct := ((a.zip b).map (fun p => p.1 * p.2)).sum
    let normA := Real.sqrt ((a.map (fun x => x * x)).sum)
    let normB := Real.sqrt ((b.map (fun x => x * x)).sum)
    if normA = 0 ∨ normB = 0 then .ok 0
    else .ok (dotProduct / (normA * normB))

/-- `EmbeddingSearchStrategy.search`. -/
noncomputable def EmbeddingSearchStrategy.search (queryEmbedding : List ℝ)
    (indexedTools : List IndexedTool) (options : SearchOptions) :
    Except String (List ToolReference) :=
  let toolsWithEmbeddings := indexedTools.filter (fun t => t.hasEmbedding)
  if toolsWithEmbeddings.length = 0 then
    .error "No tools with embeddings found in index. Re-index with embeddings enabled."
  else do
    let results ← toolsWithEmbeddings.foldlM
      (fun (acc : List ToolReference) indexed => do
        let similarity ← EmbeddingSearchStrategy.cosineSimilarity queryEmbedding
          (indexed.embedding.getD [])
        let score := (similarity + 1) / 2
        if options.threshold.getD 0 ≤ score then
          pure (acc ++ [{ name := indexed.tool.name, title := indexed.tool.title,
                          description := indexed.tool.description,
                          score := round3 score, matchType := "embedding" }])
        else pure acc) []
    pure ((sortByScoreDesc results).take options.topK)

/-! ### Hybrid search strategy (`HybridSearchStrategy`, reciprocal rank
fusion) -/

/-- One entry of the `Map<string, { score, tool }>` built by
`reciprocalRankFusion` (keyed by `tool.name`, insertion-ordered). -/
structure FusedEntry where
  tool : ToolReference
  score : ℝ

/-- `scores.set(...)` / `existing.score += rrfScore` for one sub-result. -/
noncomputable def HybridSearchStrategy.addScore (entries : List FusedEntry) (nm : String)
    (s : ℝ) (tool : ToolReference) : List FusedEntry :=
  match entries with
  | [] => [{ tool := tool, score := s }]
  | e :: es =>
    if e.tool.name = nm then { tool := e.tool, score := e.score + s } :: es
    else e :: HybridSearchStrategy.addScore es nm s tool

/-- `addScores`: fold one sub-result list into the map, adding
`1 / (k + rank + 1)` at zero-based rank `rank`. -/
noncomputable def HybridSearchStrategy.addScores (rrfK : ℝ) (entries : List FusedEntry)
    (results : List ToolReference) : List FusedEntry :=
  (results.enum).foldl
    (fun m p => HybridSearchStrategy.addScore m p.2.name (1 / (rrfK + (p.1 : ℝ) + 1)) p.2)
    entries

/-- The fused map after both `addScores` calls. -/
noncomputable def HybridSearchStrategy.fusedEntries (rrfK : ℝ)
    (bm25Results embeddingResults : List ToolReference) : List FusedEntry :=
  HybridSearchStrategy.addScores rrfK
    (HybridSearchStrategy.addScores rrfK [] bm25Results) embeddingResults

/-- `reciprocalRankFusion`: sort the fused entries descending, then divide
by the best score (or 1 when empty), round, and stamp `matchType :=
"hybrid"`. -/
noncomputable def HybridSearchStrategy.reciprocalRankFusion (rrfK : ℝ)
    (bm25Results embeddingResults : List ToolReference) : List ToolReference :=
  let results := sortDescBy (fun e : FusedEntry => e.score)
    (HybridSearchStrategy.fusedEntries rrfK bm25Results embeddingResults)
  let maxScore := (match results with
    | [] => (1 : ℝ)
    | e :: _ => e.score)
  results.map (fun e =>
    { e.tool with score := round3 (e.score / maxScore), matchType := "hybrid" })

/-- `HybridSearchStrategy.search`: fail fast without embeddings, run both
sub-searches with `topK * topKMultiplier` and threshold 0, fuse, then apply
the caller's threshold and `topK`.  (The BM25 sub-search is pure and cannot
reject, so only the embedding side's error wrapper is reachable.) -/
noncomputable def HybridSearchStrategy.search (rrfK : ℝ) (topKMultiplier : ℕ)
    (statsOpt : Option BM25Stats) (query : String) (queryEmbedding : List ℝ)
    (indexedTools : List IndexedTool) (options : SearchOptions) :
    Except String (List ToolReference) :=
  if ¬ indexedTools.any (fun t => t.hasEmbedding) then
    .error "Hybrid search requires embeddings. Re-index with embeddings enabled."
  else
    let expandedOptions : SearchOptions :=
      { topK := options.topK * topKMultiplier, threshold := some 0 }
    let bm25Results := BM25SearchStrategy.search statsOpt query indexedTools expandedOptions
    match EmbeddingSearchStrategy.search queryEmbedding indexedTools expandedOptions with
    | .error e => .error ("Embedding search failed: " ++ e)
    | .ok embeddingResults =>
      let fused := HybridSearchStrategy.reciprocalRankFusion rrfK bm25Results embeddingResults
      .ok ((fused.filter (fun r => options.threshold.getD 0 ≤ r.score)).take options.topK)

/-! ### Common postconditions of the four strategies (claim C2) -/

theorem sortedDesc_take (l : List ToolReference) (n : ℕ) (h : sortedDesc l) :
    sortedDesc (l.take n) :=
  h.sublist (List.take_sublist n l)

theorem sortedDesc_filter (l : List ToolReference) (p : ToolReference → Bool)
    (h : sortedDesc l) : sortedDesc (l.filter p) :=
  h.sublist (List.filter_sublist l)

theorem take_len_le {α : Type} (l : List α) (n : ℕ) : (l.take n).length ≤ n := by
  rw [List.length_take]
  exact min_le_left _ _

theorem sortedDesc_nil : sortedDesc [] := List.Pairwise.nil

/-- Every result the regex strategy emits carries a score at least the
threshold (the threshold is compared against the already-rounded score). -/
theorem RegexSearchStrategy.mem_search_threshold
    (matcher : String → Option (List String)) (query : String)
    (indexedTools : List IndexedTool) (options : SearchOptions) :
    ∀ r ∈ RegexSearchStrategy.search matcher query indexedTools options,
      options.threshold.getD 0 ≤ r.score := by
  intro r hr
  unfold RegexSearchStrategy.search at hr
  have hr' : r ∈ sortByScoreDesc (indexedTools.filterMap _) := List.take_subset _ _ hr
  have hr'' := (sortByScoreDesc_perm _).mem_iff.mp hr'
  obtain ⟨d, _, hfd⟩ := List.mem_filterMap.mp hr''
  revert hfd
  cases matcher d.searchableText with
  | none => intro hfd; exact absurd hfd Option.noConfusion
  | some ms =>
    simp only
    by_cases hcond : options.threshold.getD 0 ≤
        RegexSearchStrategy.calculateScore ms d.searchableText query
    · rw [if_pos hcond]
      intro hfd
      cases Option.some_inj.mp hfd
      exact hcond
    · rw [if_neg hcond]
      intro hfd
      exact absurd hfd Option.noConfusion

theorem HybridSearchStrategy.addScore_pos (entries : List FusedEntry) (nm : String)
    (s : ℝ) (tool : ToolReference) (hs : 0 < s)
    (h : ∀ e ∈ entries, 0 < e.score) :
    ∀ e ∈ HybridSearchStrategy.addScore entries nm s tool, 0 < e.score := by
  induction entries with
  | nil =>
    intro e he
    unfold HybridSearchStrategy.addScore at he
    rcases List.mem_singleton.mp he with rfl
    exact hs
  | cons a rest ih =>
    intro e he
    unfold HybridSearchStrategy.addScore at he
    by_cases heq : a.tool.name = nm
    · rw [if_pos heq] at he
      rcases List.mem_cons.mp he with rfl | hmem
      · have := h a (List.mem_cons_self _ _)
        simp only
        linarith
      · exact h e (List.mem_cons_of_mem _ hmem)
    · rw [if_neg heq] at he
      rcases List.mem_cons.mp he with rfl | hmem
      · exact h e (List.mem_cons_self _ _)
      · exact ih (fun x hx => h x (List.mem_cons_of_mem _ hx)) e hmem

theorem HybridSearchStrategy.addScores_pos (rrfK : ℝ) (hk : 0 < rrfK)
    (entries : List FusedEntry) (results : List ToolReference)
    (h : ∀ e ∈ entries, 0 < e.score) :
    ∀ e ∈ HybridSearchStrategy.addScores rrfK entries results, 0 < e.score := by
  unfold HybridSearchStrategy.addScores
  suffices hgen : ∀ (l : List (ℕ × ToolReference)) (entries : List FusedEntry),
      (∀ e ∈ entries, 0 < e.score) →
      ∀ e ∈ l.foldl (fun m p =>
        HybridSearchStrategy.addScore m p.2.name (1 / (rrfK + (p.1 : ℝ) + 1)) p.2) entries,
        0 < e.score from hgen results.enum entries h
  intro l
  induction l with
  | nil => intro entries h e he; exact h e he
  | cons p ps ih =>
    intro entries h e he
    simp only [List.foldl_cons] at he
    refine ih _ ?_ e he
    apply HybridSearchStrategy.addScore_pos
    · apply div_pos one_pos
      have : (0:ℝ) ≤ (p.1 : ℝ) := Nat.cast_nonneg _
      linarith
    · exact h

theorem HybridSearchStrategy.fusedEntries_pos (rrfK : ℝ) (hk : 0 < rrfK)
    (l1 l2 : List ToolReference) :
    ∀ e ∈ HybridSearchStrategy.fusedEntries rrfK l1 l2, 0 < e.score := by
  unfold HybridSearchStrategy.fusedEntries
  apply HybridSearchStrategy.addScores_pos rrfK hk
  apply HybridSearchStrategy.addScores_pos rrfK hk
  intro e he
  exact absurd he (List.not_mem_nil e)

/-- With a positive RRF constant the fused, normalized list is sorted
descending. -/
theorem HybridSearchStrategy.rrf_sorted (rrfK : ℝ) (hk : 0 < rrfK)
    (l1 l2 : List ToolReference) :
    sortedDesc (HybridSearchStrategy.reciprocalRankFusion rrfK l1 l2) := by
  unfold HybridSearchStrategy.reciprocalRankFusion
  cases hs : sortDescBy (fun e : FusedEntry => e.score)
      (HybridSearchStrategy.fusedEntries rrfK l1 l2) with
  | nil => exact sortedDesc_nil
  | cons e0 rest =>
    have hsorted := sortDescBy_sorted (fun e : FusedEntry => e.score)
      (HybridSearchStrategy.fusedEntries rrfK l1 l2)
    rw [hs] at hsorted
    have he0 : 0 < e0.score := by
      have : e0 ∈ HybridSearchStrategy.fusedEntries rrfK l1 l2 := by
        have hmem : e0 ∈ e0 :: rest := List.mem_cons_self _ _
        rw [← hs] at hmem
        exact (sortDescBy_perm _ _).mem_iff.mp hmem
      exact HybridSearchStrategy.fusedEntries_pos rrfK hk l1 l2 e0 this
    unfold sortedDesc
    apply List.Pairwise.map
      (R := fun a b : FusedEntry => b.score ≤ a.score)
    · intro a b hab
      show round3 (b.score / e0.score) ≤ round3 (a.score / e0.score)
      apply round3_mono
      exact (div_le_div_right he0).mpr hab
    · exact hsorted

/-- With a positive RRF constant, the head of the fused, normalized list has
score exactly `round3(max/max) = 1`. -/
theorem HybridSearchStrategy.rrf_head_one (rrfK : ℝ) (hk : 0 < rrfK)
    (l1 l2 : List ToolReference) (r : ToolReference) (rest : List ToolReference)
    (h : HybridSearchStrategy.reciprocalRankFusion rrfK l1 l2 = r :: rest) :
    r.score = 1 := by
  revert h
  unfold HybridSearchStrategy.reciprocalRankFusion
  cases hs : sortDescBy (fun e : FusedEntry => e.score)
      (HybridSearchStrategy.fusedEntries rrfK l1 l2) with
  | nil => intro h; simp at h
  | cons e0 rest' =>
    intro h
    have he0 : 0 < e0.score := by
      have hmem : e0 ∈ HybridSearchStrategy.fusedEntries rrfK l1 l2 := by
        have h0 : e0 ∈ e0 :: rest' := List.mem_cons_self _ _
        rw [← hs] at h0
        exact (sortDescBy_perm _ _).mem_iff.mp h0
      exact HybridSearchStrategy.fusedEntries_pos rrfK hk l1 l2 e0 hmem
    simp only [List.map_cons, List.cons.injEq] at h
    obtain ⟨h1, -⟩ := h
    rw [← h1]
    show round3 (e0.score / e0.score) = 1
    rw [div_self (ne_of_gt he0)]
    exact round3_one

/-- With a positive RRF constant, every fused, normalized score is at most
1 (each fused score is at most the sorted head used as the normalizer). -/
theorem HybridSearchStrategy.rrf_le_one (rrfK : ℝ) (hk : 0 < rrfK)
    (l1 l2 : List ToolReference) :
    ∀ r ∈ HybridSearchStrategy.reciprocalRankFusion rrfK l1 l2, r.score ≤ 1 := by
  unfold HybridSearchStrategy.reciprocalRankFusion
  cases hs : sortDescBy (fun e : FusedEntry => e.score)
      (HybridSearchStrategy.fusedEntries rrfK l1 l2) with
  | nil => intro r hr; simp at hr
  | cons e0 rest' =>
    intro r hr
    simp only [List.mem_map] at hr
    obtain ⟨e, he, rfl⟩ := hr
    have he0 : 0 < e0.score := by
      have hmem : e0 ∈ HybridSearchStrategy.fusedEntries rrfK l1 l2 := by
        have h0 : e0 ∈ e0 :: rest' := List.mem_cons_self _ _
        rw [← hs] at h0
        exact (sortDescBy_perm _ _).mem_iff.mp h0
      exact HybridSearchStrategy.fusedEntries_pos rrfK hk l1 l2 e0 hmem
    have hle : e.score ≤ e0.score := by
      apply sortDescBy_head_max (fun e : FusedEntry => e.score)
        (HybridSearchStrategy.fusedEntries rrfK l1 l2) e0 rest' hs
      rw [← (sortDescBy_perm (fun e : FusedEntry => e.score)
        (HybridSearchStrategy.fusedEntries rrfK l1 l2)).mem_iff, hs]
      exact he
    show round3 (e.score / e0.score) ≤ 1
    exact round3_le_one ((div_le_one he0).mpr hle)

/-- The head of a threshold-filtered, truncated list whose scores are all at
most 1 and whose head scores exactly 1 still scores exactly 1: the original
head passes any threshold some survivor passes. -/
theorem head_filter_take_score_one (F : List ToolReference) (t : ℝ) (n : ℕ)
    (hle : ∀ x ∈ F, x.score ≤ 1)
    (hhead : ∀ x xs, F = x :: xs → x.score = 1)
    (r : ToolReference) (rest : List ToolReference)
    (h : (F.filter (fun x => decide (t ≤ x.score))).take n = r :: rest) :
    r.score = 1 := by
  cases hF : F.filter (fun x => decide (t ≤ x.score)) with
  | nil => rw [hF] at h; simp at h
  | cons r' rest' =>
    rw [hF] at h
    cases n with
    | zero => simp at h
    | succ m =>
      rw [List.take_succ_cons] at h
      obtain ⟨h1, -⟩ := List.cons.injEq .. ▸ h
      have hr'mem : r' ∈ F.filter (fun x => decide (t ≤ x.score)) := by
        rw [hF]
        exact List.mem_cons_self _ _
      have hr'F := List.mem_filter.mp hr'mem
      cases hFnil : F with
      | nil => rw [hFnil] at hF; simp at hF
      | cons f0 frest =>
        have hf0 : f0.score = 1 := hhead f0 frest hFnil
        have hpf0 : decide (t ≤ f0.score) = true := by
          have ht1 : t ≤ r'.score := of_decide_eq_true hr'F.2
          have h1' : r'.score ≤ 1 := hle r' hr'F.1
          rw [decide_eq_true_eq, hf0]
          linarith
        rw [hFnil,
          List.filter_cons_of_pos (p := fun x : ToolReference => decide (t ≤ x.score))
            hpf0] at hF
        obtain ⟨h2, -⟩ := List.cons.injEq .. ▸ hF
        rw [← h1, ← h2]
        exact hf0

theorem RegexSearchStrategy.search_eq (matcher : String → Option (List String))
    (query : String) (indexedTools : List IndexedTool) (options : SearchOptions) :
    RegexSearchStrategy.search matcher query indexedTools options =
      (sortByScoreDesc (indexedTools.filterMap (fun indexed =>
        match matcher indexed.searchableText with
        | none => none
        | some ms =>
          if options.threshold.getD 0 ≤
              RegexSearchStrategy.calculateScore ms indexed.searchableText query then
            some { name := indexed.tool.name, title := indexed.tool.title,
                   description := indexed.tool.description,
                   score := RegexSearchStrategy.calculateScore ms indexed.searchableText query,
                   matchType := "regex" }
          else none))).take options.topK := rfl

theorem except_bind_ok_shape {ε α β : Type} (x : Except ε α) (g : α → Except ε β)
    (b : β) (h : x >>= g = .ok b) : ∃ a, x = .ok a ∧ g a = .ok b := by
  cases x with
  | error e =>
    exfalso
    simp only [Bind.bind, Except.bind] at h
    exact absurd h Except.noConfusion
  | ok a =>
    refine ⟨a, rfl, ?_⟩
    simpa only [Bind.bind, Except.bind] using h

/-- C2 (amended): every strategy returns at most `topK` results, sorted
descending by score; the regex and hybrid strategies additionally guarantee
every returned score is at least the threshold, and a nonempty hybrid
result list starts at score exactly 1.0 (the normalized head
`round3(max/max)` passes any threshold a survivor passes).  The claim fails
only for the embedding strategy: it never normalizes, so a nonempty result
list need not start at 1.0, and it compares the threshold against the
pre-rounding score, so a returned rounded score can fall below it — see the
counterexample. -/
theorem c2_strategy_postconditions (matcher : String → Option (List String))
    (query : String) (docs : List IndexedTool) (opts : SearchOptions)
    (statsOpt : Option BM25Stats) (queryEmbedding : List ℝ)
    (rrfK : ℝ) (topKMultiplier : ℕ) (hk : 0 < rrfK) :
    ((RegexSearchStrategy.search matcher query docs opts).length ≤ opts.topK ∧
      sortedDesc (RegexSearchStrategy.search matcher query docs opts) ∧
      ∀ r ∈ RegexSearchStrategy.search matcher query docs opts,
        opts.threshold.getD 0 ≤ r.score) ∧
    ((BM25SearchStrategy.search statsOpt query docs opts).length ≤ opts.topK ∧
      sortedDesc (BM25SearchStrategy.search statsOpt query docs opts)) ∧
    (∀ l, EmbeddingSearchStrategy.search queryEmbedding docs opts = .ok l →
      l.length ≤ opts.topK ∧ sortedDesc l) ∧
    (∀ l, HybridSearchStrategy.search rrfK topKMultiplier statsOpt query
        queryEmbedding docs opts = .ok l →
      l.length ≤ opts.topK ∧ sortedDesc l ∧
        (∀ r ∈ l, opts.threshold.getD 0 ≤ r.score) ∧
        ∀ r rest, l = r :: rest → r.score = 1) := by
  refine ⟨⟨?_, ?_, ?_⟩, ⟨?_, ?_⟩, ?_, ?_⟩
  · rw [RegexSearchStrategy.search_eq]
    exact take_len_le _ _
  · rw [RegexSearchStrategy.search_eq]
    exact sortedDesc_take _ _ (sortByScoreDesc_sorted _)
  · exact RegexSearchStrategy.mem_search_threshold matcher query docs opts
  · rw [BM25SearchStrategy.search]
    by_cases hqt : IndexBuilder.tokenize query = []
    · rw [if_pos hqt]
      simp
    · rw [if_neg hqt]
      exact take_len_le _ _
  · rw [BM25SearchStrategy.search]
    by_cases hqt : IndexBuilder.tokenize query = []
    · rw [if_pos hqt]
      exact sortedDesc_nil
    · rw [if_neg hqt]
      exact sortedDesc_take _ _ (sortByScoreDesc_sorted _)
  · intro l hl
    rw [EmbeddingSearchStrategy.search] at hl
    by_cases hempty : (docs.filter (fun t => t.hasEmbedding)).length = 0
    · rw [if_pos hempty] at hl
      exact absurd hl Except.noConfusion
    · rw [if_neg hempty] at hl
      obtain ⟨rs, _, hg⟩ := except_bind_ok_shape _ _ _ hl
      have hpure : (pure ((sortByScoreDesc rs).take opts.topK) : Except String _) =
          Except.ok ((sortByScoreDesc rs).take opts.topK) := rfl
      rw [hpure] at hg
      cases Except.ok.inj hg
      exact ⟨take_len_le _ _, sortedDesc_take _ _ (sortByScoreDesc_sorted _)⟩
  · intro l hl
    rw [HybridSearchStrategy.search] at hl
    by_cases hany : ¬ docs.any (fun t => t.hasEmbedding)
    · rw [if_pos hany] at hl
      exact absurd hl Except.noConfusion
    · rw [if_neg hany] at hl
      simp only [] at hl
      cases hemb : EmbeddingSearchStrategy.search queryEmbedding docs
          { topK := opts.topK * topKMultiplier, threshold := some 0 } with
      | error e =>
        rw [hemb] at hl
        exact absurd hl Except.noConfusion
      | ok embRes =>
        rw [hemb] at hl
        cases Except.ok.inj hl
        refine ⟨take_len_le _ _,
          sortedDesc_take _ _ (sortedDesc_filter _ _
            (HybridSearchStrategy.rrf_sorted rrfK hk _ _)), ?_, ?_⟩
        · intro r hr
          have hr' := List.take_subset _ _ hr
          have hr'' := List.mem_filter.mp hr'
          exact of_decide_eq_true hr''.2
        · intro r rest hco
          exact head_filter_take_score_one _ _ _
            (HybridSearchStrategy.rrf_le_one rrfK hk _ _)
            (fun x xs hx => HybridSearchStrategy.rrf_head_one rrfK hk _ _ x xs hx)
            r rest hco

theorem sortByScoreDesc_singleton (r : ToolReference) : sortByScoreDesc [r] = [r] := by
  unfold sortByScoreDesc sortDescBy
  rw [show sortDescBy (·.score) ([] : List ToolReference) = [] from rfl]
  unfold insertDescBy
  rfl

/-- A document with unit embedding `[0, 1]`, orthogonal to the query. -/
noncomputable def embDocA : IndexedTool :=
  { tool := { name := "emb-a" }, embedding := some [0, 1] }

/-- A document with embedding `[5, 12]` (norm 13). -/
noncomputable def embDocB : IndexedTool :=
  { tool := { name := "emb-b" }, embedding := some [5, 12] }

theorem cosine_query_embDocA :
    EmbeddingSearchStrategy.cosineSimilarity [1, 0] [0, 1] = .ok 0 := by
  unfold EmbeddingSearchStrategy.cosineSimilarity
  rw [if_neg (by norm_num)]
  simp only [List.zip_cons_cons, List.zip_nil_right, List.map_cons, List.map_nil,
    List.sum_cons, List.sum_nil]
  norm_num [Real.sqrt_one]

theorem cosine_query_embDocB :
    EmbeddingSearchStrategy.cosineSimilarity [1, 0] [5, 12] = .ok (5 / 13) := by
  unfold EmbeddingSearchStrategy.cosineSimilarity
  rw [if_neg (by norm_num)]
  simp only [List.zip_cons_cons, List.zip_nil_right, List.map_cons, List.map_nil,
    List.sum_cons, List.sum_nil]
  have h169 : (5 * 5 + (12 * 12 + 0) : ℝ) = 13 ^ 2 := by norm_num
  have h1 : (1 * 1 + (0 * 0 + 0) : ℝ) = 1 := by norm_num
  rw [h169, h1, Real.sqrt_one, Real.sqrt_sq (by norm_num : (0:ℝ) ≤ 13)]
  rw [if_neg (by norm_num)]
  norm_num

theorem round3_half : round3 ((1:ℝ) / 2) = 1 / 2 := by
  have h := round3_intCast 500
  norm_num at h
  convert h using 2 <;> norm_num

theorem round3_nineThirteenths : round3 ((9:ℝ) / 13) = 692 / 1000 := by
  have h := round3_eq_of_bounds ((9:ℝ) / 13) 692 (by norm_num) (by norm_num)
  rw [h]
  norm_num

theorem embSearch_A :
    EmbeddingSearchStrategy.search [1, 0] [embDocA] cOpts =
      .ok [{ name := "emb-a", title := none, description := "",
             score := 1 / 2, matchType := "embedding" }] := by
  rw [EmbeddingSearchStrategy.search]
  have hfil : List.filter (fun t => t.hasEmbedding) [embDocA] = [embDocA] := by
    simp [embDocA, IndexedTool.hasEmbedding]
  rw [hfil]
  rw [if_neg (by norm_num)]
  simp only [List.foldlM_cons, List.foldlM_nil]
  have hemb : embDocA.embedding.getD [] = [0, 1] := by simp [embDocA]
  rw [hemb, cosine_query_embDocA]
  simp only [Bind.bind, Except.bind]
  rw [if_pos (by norm_num [cOpts] : cOpts.threshold.getD 0 ≤ ((0:ℝ) + 1) / 2)]
  simp only [List.nil_append, sortByScoreDesc_singleton]
  have hsc : round3 (((0:ℝ) + 1) / 2) = 1 / 2 := by
    rw [show (((0:ℝ) + 1) / 2) = (1:ℝ) / 2 by norm_num]
    exact round3_half
  rw [hsc]
  rfl

theorem embSearch_B :
    EmbeddingSearchStrategy.search [1, 0] [embDocB]
        { topK := 5, threshold := some (9 / 13) } =
      .ok [{ name := "emb-b", title := none, description := "",
             score := 692 / 1000, matchType := "embedding" }] := by
  rw [EmbeddingSearchStrategy.search]
  have hfil : List.filter (fun t => t.hasEmbedding) [embDocB] = [embDocB] := by
    simp [embDocB, IndexedTool.hasEmbedding]
  rw [hfil]
  rw [if_neg (by norm_num)]
  simp only [List.foldlM_cons, List.foldlM_nil]
  have hemb : embDocB.embedding.getD [] = [5, 12] := by simp [embDocB]
  rw [hemb, cosine_query_embDocB]
  simp only [Bind.bind, Except.bind]
  rw [if_pos (by norm_num :
    (SearchOptions.mk 5 (some ((9:ℝ) / 13))).threshold.getD 0 ≤ ((5:ℝ) / 13 + 1) / 2)]
  simp only [List.nil_append, sortByScoreDesc_singleton]
  have hsc : round3 (((5:ℝ) / 13 + 1) / 2) = 692 / 1000 := by
    rw [show (((5:ℝ) / 13 + 1) / 2) = (9:ℝ) / 13 by norm_num]
    exact round3_nineThirteenths
  rw [hsc]
  rfl

/-- C2: the claim as stated is false.  First run: a nonempty embedding
result list whose top (and only) score is `0.5`, not `1.0` (the strategy
performs no normalization).  Second run: the embedding strategy compares the
threshold against the unrounded score, so the rounded returned score
`0.692` falls below the threshold `9/13 ≈ 0.6923`. -/
theorem c2_counterexample :
    (EmbeddingSearchStrategy.search [1, 0] [embDocA] cOpts =
      .ok [{ name := "emb-a", title := none, description := "",
             score := 1 / 2, matchType := "embedding" }] ∧ (1 / 2 : ℝ) ≠ 1) ∧
    (EmbeddingSearchStrategy.search [1, 0] [embDocB]
        { topK := 5, threshold := some (9 / 13) } =
      .ok [{ name := "emb-b", title := none, description := "",
             score := 692 / 1000, matchType := "embedding" }] ∧
      (692 / 1000 : ℝ) <
        (SearchOptions.mk 5 (some ((9:ℝ) / 13))).threshold.getD 0) := by
  refine ⟨⟨embSearch_A, by norm_num⟩, ⟨embSearch_B, ?_⟩⟩
  show (692 / 1000 : ℝ) < (9:ℝ) / 13
  norm_num

/-- C2 witness: the amended postconditions instantiated at a concrete
input with the default RRF constant `k = 60`. -/
theorem c2_strategy_postconditions_witness :
    0 < (60:ℝ) ∧
    (((RegexSearchStrategy.search (fun _ => none) "hello" [helloDoc] cOpts).length ≤
        cOpts.topK ∧
      sortedDesc (RegexSearchStrategy.search (fun _ => none) "hello" [helloDoc] cOpts) ∧
      ∀ r ∈ RegexSearchStrategy.search (fun _ => none) "hello" [helloDoc] cOpts,
        cOpts.threshold.getD 0 ≤ r.score) ∧
    ((BM25SearchStrategy.search none "hello" [helloDoc] cOpts).length ≤ cOpts.topK ∧
      sortedDesc (BM25SearchStrategy.search none "hello" [helloDoc] cOpts)) ∧
    (∀ l, EmbeddingSearchStrategy.search [1, 0] [helloDoc] cOpts = .ok l →
      l.length ≤ cOpts.topK ∧ sortedDesc l) ∧
    (∀ l, HybridSearchStrategy.search 60 3 none "hello" [1, 0] [helloDoc] cOpts = .ok l →
      l.length ≤ cOpts.topK ∧ sortedDesc l ∧
        (∀ r ∈ l, cOpts.threshold.getD 0 ≤ r.score) ∧
        ∀ r rest, l = r :: rest → r.score = 1)) :=
  ⟨by norm_num,
    c2_strategy_postconditions (fun _ => none) "hello" [helloDoc] cOpts none [1, 0] 60 3
      (by norm_num)⟩

/-! ### Claim C3: the fused scores of reciprocal rank fusion -/

/-- The names of the fused-map entries, in insertion order. -/
def namesOf (m : List FusedEntry) : List String := m.map (fun e => e.tool.name)

/-- Look up the fused score stored under the key `nm`. -/
noncomputable def findScore (m : List FusedEntry) (nm : String) : Option ℝ :=
  (m.find? (fun e => e.tool.name == nm)).map (fun e => e.score)

/-- The claim's per-list RRF contribution: `1 / (k + r + 1)` at zero-based
rank `r` when the list contains the document, else `0`. -/
noncomputable def rrfContribution (k : ℝ) (l : List ToolReference) (nm : String) : ℝ :=
  if nm ∈ l.map (fun r => r.name) then
    1 / (k + (((l.map (fun r => r.name)).indexOf nm : ℕ) : ℝ) + 1)
  else 0

theorem findScore_addScore_same (m : List FusedEntry) (nm : String) (s : ℝ)
    (tool : ToolReference) (ht : tool.name = nm) :
    findScore (HybridSearchStrategy.addScore m nm s tool) nm =
      some ((findScore m nm).getD 0 + s) := by
  induction m with
  | nil =>
    unfold HybridSearchStrategy.addScore findScore
    simp [ht]
  | cons e es ih =>
    unfold HybridSearchStrategy.addScore
    by_cases heq : e.tool.name = nm
    · rw [if_pos heq]
      unfold findScore
      simp [heq]
    · rw [if_neg heq]
      unfold findScore at ih ⊢
      simp only [List.find?_cons]
      have hbeq : (e.tool.name == nm) = false := by
        simp [heq]
      rw [hbeq]
      exact ih

theorem findScore_addScore_other (m : List FusedEntry) (nm : String) (s : ℝ)
    (tool : ToolReference) (nm' : String) (hne : nm' ≠ nm) (ht : tool.name = nm) :
    findScore (HybridSearchStrategy.addScore m nm s tool) nm' = findScore m nm' := by
  induction m with
  | nil =>
    unfold HybridSearchStrategy.addScore findScore
    have hbeq : (tool.name == nm') = false := by
      rw [ht]
      simp only [beq_eq_false_iff_ne, ne_eq]
      exact fun h => hne h.symm
    simp [hbeq]
  | cons e es ih =>
    unfold HybridSearchStrategy.addScore
    by_cases heq : e.tool.name = nm
    · rw [if_pos heq]
      have h1 : (e.tool.name == nm') = false := by
        rw [heq]
        simp only [beq_eq_false_iff_ne, ne_eq]
        exact fun h => hne h.symm
      unfold findScore
      simp only [List.find?_cons]
      simp only [h1]
    · rw [if_neg heq]
      unfold findScore at ih ⊢
      simp only [List.find?_cons]
      cases hbeq : (e.tool.name == nm') with
      | true => rfl
      | false => exact ih

theorem namesOf_addScore (m : List FusedEntry) (nm : String) (s : ℝ)
    (tool : ToolReference) (ht : tool.name = nm) :
    namesOf (HybridSearchStrategy.addScore m nm s tool) =
      if nm ∈ namesOf m then namesOf m else namesOf m ++ [nm] := by
  induction m with
  | nil =>
    unfold HybridSearchStrategy.addScore namesOf
    simp [ht]
  | cons e es ih =>
    unfold HybridSearchStrategy.addScore
    by_cases heq : e.tool.name = nm
    · rw [if_pos heq]
      unfold namesOf
      simp [heq]
    · rw [if_neg heq]
      unfold namesOf at ih ⊢
      simp only [List.map_cons]
      rw [ih]
      have hmem : nm ∈ e.tool.name :: es.map (fun e => e.tool.name) ↔
          nm ∈ es.map (fun e => e.tool.name) := by
        constructor
        · intro h
          rcases List.mem_cons.mp h with h1 | h2
          · exact absurd h1.symm heq
          · exact h2
        · exact List.mem_cons_of_mem _
      by_cases hin : nm ∈ es.map (fun e => e.tool.name)
      · rw [if_pos hin, if_pos (hmem.mpr hin)]
      · rw [if_neg hin, if_neg (fun h => hin (hmem.mp h))]
        simp

theorem nodup_namesOf_addScore (m : List FusedEntry) (nm : String) (s : ℝ)
    (tool : ToolReference) (ht : tool.name = nm) (h : (namesOf m).Nodup) :
    (namesOf (HybridSearchStrategy.addScore m nm s tool)).Nodup := by
  rw [namesOf_addScore m nm s tool ht]
  by_cases hin : nm ∈ namesOf m
  · rw [if_pos hin]
    exact h
  · rw [if_neg hin]
    simp [List.nodup_append, h, hin]

theorem nodup_namesOf_addScores (rrfK : ℝ) (entries : List FusedEntry)
    (results : List ToolReference) (h : (namesOf entries).Nodup) :
    (namesOf (HybridSearchStrategy.addScores rrfK entries results)).Nodup := by
  unfold HybridSearchStrategy.addScores
  suffices hgen : ∀ (l : List (ℕ × ToolReference)) (entries : List FusedEntry),
      (namesOf entries).Nodup →
      (namesOf (l.foldl (fun m p =>
        HybridSearchStrategy.addScore m p.2.name (1 / (rrfK + (p.1 : ℝ) + 1)) p.2)
        entries)).Nodup from hgen results.enum entries h
  intro l
  induction l with
  | nil => intro entries h; exact h
  | cons p ps ih =>
    intro entries h
    simp only [List.foldl_cons]
    exact ih _ (nodup_namesOf_addScore _ _ _ _ rfl h)

theorem findScore_of_mem (m : List FusedEntry) (hnd : (namesOf m).Nodup)
    (e : FusedEntry) (he : e ∈ m) : findScore m e.tool.name = some e.score := by
  induction m with
  | nil => exact absurd he (List.not_mem_nil e)
  | cons a as ih =>
    unfold namesOf at hnd
    simp only [List.map_cons, List.nodup_cons] at hnd
    rcases List.mem_cons.mp he with rfl | hmem
    · unfold findScore
      simp
    · have hne : (a.tool.name == e.tool.name) = false := by
        simp only [beq_eq_false_iff_ne, ne_eq]
        intro hcontra
        exact hnd.1 (hcontra ▸ List.mem_map_of_mem (fun x => x.tool.name) hmem)
      unfold findScore at ih ⊢
      simp only [List.find?_cons, hne]
      exact ih hnd.2 hmem

theorem findScore_some_mem (m : List FusedEntry) (nm : String) (v : ℝ)
    (h : findScore m nm = some v) : ∃ e ∈ m, e.tool.name = nm ∧ e.score = v := by
  unfold findScore at h
  cases hf : m.find? (fun e => e.tool.name == nm) with
  | none => rw [hf] at h; exact absurd h Option.noConfusion
  | some e =>
    rw [hf] at h
    refine ⟨e, List.mem_of_find?_eq_some hf, ?_, ?_⟩
    · have := List.find?_some hf
      simpa using this
    · simpa using h

theorem findScore_addScores_fold (rrfK : ℝ) (results : List ToolReference)
    (hnd : (results.map (fun r => r.name)).Nodup) :
    ∀ (n : ℕ) (entries : List FusedEntry) (nm : String),
      findScore ((List.enumFrom n results).foldl
        (fun m p => HybridSearchStrategy.addScore m p.2.name
          (1 / (rrfK + (p.1 : ℝ) + 1)) p.2) entries) nm =
      if nm ∈ results.map (fun r => r.name) then
        some ((findScore entries nm).getD 0 +
          1 / (rrfK + (((n + (results.map (fun r => r.name)).indexOf nm : ℕ)) : ℝ) + 1))
      else findScore entries nm := by
  induction results with
  | nil =>
    intro n entries nm
    simp [List.enumFrom]
  | cons r rs ih =>
    have hnd' : (rs.map (fun r => r.name)).Nodup := by
      simp only [List.map_cons, List.nodup_cons] at hnd
      exact hnd.2
    have hhead : r.name ∉ rs.map (fun r => r.name) := by
      simp only [List.map_cons, List.nodup_cons] at hnd
      exact hnd.1
    intro n entries nm
    simp only [List.enumFrom, List.foldl_cons]
    by_cases heq : nm = r.name
    · subst heq
      rw [ih hnd' (n + 1) _ r.name, if_neg hhead]
      rw [findScore_addScore_same entries r.name _ r rfl]
      rw [if_pos (by simp)]
      have hidx : ((r.name :: rs.map (fun r => r.name)).indexOf r.name) = 0 :=
        List.indexOf_cons_self _ _
      simp only [List.map_cons]
      rw [hidx]
      norm_num
    · rw [ih hnd' (n + 1) _ nm]
      rw [findScore_addScore_other entries r.name _ r nm heq rfl]
      simp only [List.map_cons]
      by_cases hin : nm ∈ rs.map (fun r => r.name)
      · rw [if_pos hin, if_pos (List.mem_cons_of_mem _ hin)]
        have hidx : ((r.name :: rs.map (fun r => r.name)).indexOf nm) =
            (rs.map (fun r => r.name)).indexOf nm + 1 := by
          rw [List.indexOf_cons_ne _ (fun h => heq h.symm)]
        rw [hidx]
        have : (n + 1) + (rs.map (fun r => r.name)).indexOf nm =
            n + ((rs.map (fun r => r.name)).indexOf nm + 1) := by omega
        rw [this]
      · rw [if_neg hin, if_neg (by
          intro hcontra
          rcases List.mem_cons.mp hcontra with h1 | h2
          · exact heq h1
          · exact hin h2)]

theorem findScore_addScores (rrfK : ℝ) (entries : List FusedEntry)
    (results : List ToolReference) (hnd : (results.map (fun r => r.name)).Nodup)
    (nm : String) :
    findScore (HybridSearchStrategy.addScores rrfK entries results) nm =
      if nm ∈ results.map (fun r => r.name) then
        some ((findScore entries nm).getD 0 +
          1 / (rrfK + (((results.map (fun r => r.name)).indexOf nm : ℕ) : ℝ) + 1))
      else findScore entries nm := by
  unfold HybridSearchStrategy.addScores
  rw [show results.enum = List.enumFrom 0 results from rfl]
  rw [findScore_addScores_fold rrfK results hnd 0 entries nm]
  by_cases hin : nm ∈ results.map (fun r => r.name)
  · rw [if_pos hin, if_pos hin]
    norm_num
  · rw [if_neg hin, if_neg hin]

theorem findScore_fusedEntries (rrfK : ℝ) (l1 l2 : List ToolReference)
    (h1 : (l1.map (fun r => r.name)).Nodup) (h2 : (l2.map (fun r => r.name)).Nodup)
    (nm : String) :
    findScore (HybridSearchStrategy.fusedEntries rrfK l1 l2) nm =
      if nm ∈ l1.map (fun r => r.name) ∨ nm ∈ l2.map (fun r => r.name) then
        some (rrfContribution rrfK l1 nm + rrfContribution rrfK l2 nm)
      else none := by
  unfold HybridSearchStrategy.fusedEntries
  rw [findScore_addScores rrfK _ l2 h2 nm, findScore_addScores rrfK [] l1 h1 nm]
  have hnil : findScore [] nm = none := rfl
  rw [hnil]
  unfold rrfContribution
  by_cases hin1 : nm ∈ l1.map (fun r => r.name) <;>
    by_cases hin2 : nm ∈ l2.map (fun r => r.name)
  · rw [if_pos hin2, if_pos hin1, if_pos hin1, if_pos hin2, if_pos (Or.inl hin1)]
    norm_num
  · rw [if_neg hin2, if_pos hin1, if_pos hin1, if_neg hin2, if_pos (Or.inl hin1)]
    norm_num
  · rw [if_pos hin2, if_neg hin1, if_neg hin1, if_pos hin2, if_pos (Or.inr hin2)]
    norm_num
  · rw [if_neg hin2, if_neg hin1, if_neg hin1, if_neg hin2,
      if_neg (by intro h; rcases h with h | h; exact hin1 h; exact hin2 h)]

theorem nodup_namesOf_fusedEntries (rrfK : ℝ) (l1 l2 : List ToolReference) :
    (namesOf (HybridSearchStrategy.fusedEntries rrfK l1 l2)).Nodup := by
  unfold HybridSearchStrategy.fusedEntries
  exact nodup_namesOf_addScores rrfK _ l2
    (nodup_namesOf_addScores rrfK [] l1 (by simp [namesOf]))

/-- C3 (amended: the normalized scores are additionally rounded to three
decimals): in hybrid search the fused (pre-normalization) score of a
document is the sum, over the sub-result lists that contain it, of
`1 / (k + r + 1)` at its zero-based rank `r` (`k` configurable, default
60); a document at rank 0 in both sub-result lists has unnormalized fused
score `2/(k+1)`; the fused results are sorted descending and each returned
score is the fused score divided by the maximum fused score, rounded to
three decimals. -/
theorem c3_rrf_fused_scores (rrfK : ℝ) (l1 l2 : List ToolReference)
    (hk : 0 < rrfK) (h1 : (l1.map (fun r => r.name)).Nodup)
    (h2 : (l2.map (fun r => r.name)).Nodup) :
    (∀ e ∈ HybridSearchStrategy.fusedEntries rrfK l1 l2,
      e.score = rrfContribution rrfK l1 e.tool.name +
        rrfContribution rrfK l2 e.tool.name) ∧
    (∀ a t1 b t2, l1 = a :: t1 → l2 = b :: t2 → b.name = a.name →
      ∃ e ∈ HybridSearchStrategy.fusedEntries rrfK l1 l2,
        e.tool.name = a.name ∧ e.score = 2 / (rrfK + 1)) ∧
    sortedDesc (HybridSearchStrategy.reciprocalRankFusion rrfK l1 l2) ∧
    (∀ M, ((HybridSearchStrategy.fusedEntries rrfK l1 l2).map
        (fun e => e.score)).maximum = some M →
      ∀ r ∈ HybridSearchStrategy.reciprocalRankFusion rrfK l1 l2,
        r.score = round3 ((rrfContribution rrfK l1 r.name +
          rrfContribution rrfK l2 r.name) / M)) := by
  have hnodup := nodup_namesOf_fusedEntries rrfK l1 l2
  have hscore : ∀ e ∈ HybridSearchStrategy.fusedEntries rrfK l1 l2,
      e.score = rrfContribution rrfK l1 e.tool.name +
        rrfContribution rrfK l2 e.tool.name := by
    intro e he
    have hf := findScore_of_mem _ hnodup e he
    rw [findScore_fusedEntries rrfK l1 l2 h1 h2 e.tool.name] at hf
    by_cases hin : e.tool.name ∈ l1.map (fun r => r.name) ∨
        e.tool.name ∈ l2.map (fun r => r.name)
    · rw [if_pos hin] at hf
      exact (Option.some_inj.mp hf).symm
    · rw [if_neg hin] at hf
      exact absurd hf Option.noConfusion
  refine ⟨hscore, ?_, HybridSearchStrategy.rrf_sorted rrfK hk l1 l2, ?_⟩
  · intro a t1 b t2 ha hb hba
    have hmem1 : a.name ∈ l1.map (fun r => r.name) := by
      rw [ha]
      simp
    have hc1 : rrfContribution rrfK l1 a.name = 1 / (rrfK + 1) := by
      unfold rrfContribution
      rw [if_pos hmem1, ha]
      simp only [List.map_cons]
      rw [List.indexOf_cons_self]
      norm_num
    have hmem2 : a.name ∈ l2.map (fun r => r.name) := by
      rw [hb]
      simp [hba]
    have hc2 : rrfContribution rrfK l2 a.name = 1 / (rrfK + 1) := by
      unfold rrfContribution
      rw [if_pos hmem2, hb]
      simp only [List.map_cons, hba]
      rw [List.indexOf_cons_self]
      norm_num
    have hf : findScore (HybridSearchStrategy.fusedEntries rrfK l1 l2) a.name =
        some (2 / (rrfK + 1)) := by
      rw [findScore_fusedEntries rrfK l1 l2 h1 h2 a.name, if_pos (Or.inl hmem1),
        hc1, hc2]
      congr 1
      rw [div_add_div_same]
      norm_num
    obtain ⟨e, he, hename, hescore⟩ := findScore_some_mem _ _ _ hf
    exact ⟨e, he, hename, hescore⟩
  · intro M hM r hr
    unfold HybridSearchStrategy.reciprocalRankFusion at hr
    cases hs : sortDescBy (fun e : FusedEntry => e.score)
        (HybridSearchStrategy.fusedEntries rrfK l1 l2) with
    | nil =>
      rw [hs] at hr
      exact absurd hr (List.not_mem_nil r)
    | cons e0 rest =>
      rw [hs] at hr
      have he0mem : e0 ∈ HybridSearchStrategy.fusedEntries rrfK l1 l2 := by
        have : e0 ∈ e0 :: rest := List.mem_cons_self _ _
        rw [← hs] at this
        exact (sortDescBy_perm _ _).mem_iff.mp this
      have he0M : e0.score = M := by
        refine le_antisymm ?_ ?_
        · exact List.le_maximum_of_mem (List.mem_map_of_mem (fun e => e.score) he0mem) hM
        · have hMmem := List.maximum_mem hM
          obtain ⟨eM, heM, heMs⟩ := List.mem_map.mp hMmem
          have : eM.score ≤ e0.score :=
            sortDescBy_head_max (fun e : FusedEntry => e.score) _ e0 rest hs eM heM
          rw [heMs] at this
          exact this
      obtain ⟨e, he, rfl⟩ := List.mem_map.mp hr
      have hemem : e ∈ HybridSearchStrategy.fusedEntries rrfK l1 l2 := by
        have : e ∈ e0 :: rest := he
        rw [← hs] at this
        exact (sortDescBy_perm _ _).mem_iff.mp this
      show round3 (e.score / e0.score) = round3 ((rrfContribution rrfK l1 e.tool.name +
        rrfContribution rrfK l2 e.tool.name) / M)
      rw [hscore e hemem, he0M]

/-- A bm25-side sub-result at rank 0. -/
noncomputable def refA : ToolReference := { name := "a", score := 1, matchType := "bm25" }

/-- A bm25-side sub-result at rank 1. -/
noncomputable def refB : ToolReference := { name := "b", score := 1 / 2, matchType := "bm25" }

/-- An embedding-side sub-result at rank 0 with the same name as `refA`. -/
noncomputable def refA2 : ToolReference :=
  { name := "a", score := 1, matchType := "embedding" }

theorem fusedEntries_example :
    HybridSearchStrategy.fusedEntries 60 [refA, refB] [refA2] =
      [{ tool := refA, score := 2 / 61 }, { tool := refB, score := 1 / 62 }] := by
  unfold HybridSearchStrategy.fusedEntries HybridSearchStrategy.addScores
  simp only [List.enum, List.enumFrom, List.foldl_cons, List.foldl_nil]
  have hn1 : refA.name = "a" := rfl
  have hn2 : refB.name = "b" := rfl
  have hn3 : refA2.name = "a" := rfl
  rw [hn1, hn2, hn3]
  have hc0 : (1:ℝ) / (60 + ((0:ℕ):ℝ) + 1) = 1 / 61 := by norm_num
  have hc1 : (1:ℝ) / (60 + ((1:ℕ):ℝ) + 1) = 1 / 62 := by norm_num
  rw [hc0, hc1]
  have s1 : HybridSearchStrategy.addScore [] "a" ((1:ℝ)/61) refA =
      [{ tool := refA, score := 1/61 }] := rfl
  rw [s1]
  have s2 : HybridSearchStrategy.addScore [{ tool := refA, score := (1:ℝ)/61 }] "b"
      ((1:ℝ)/62) refB =
      [{ tool := refA, score := 1/61 }, { tool := refB, score := 1/62 }] := by
    unfold HybridSearchStrategy.addScore
    rw [if_neg (by decide)]
    rfl
  rw [s2]
  have s3 : HybridSearchStrategy.addScore
      [{ tool := refA, score := (1:ℝ)/61 }, { tool := refB, score := (1:ℝ)/62 }] "a"
      ((1:ℝ)/61) refA2 =
      [{ tool := refA, score := 1/61 + 1/61 }, { tool := refB, score := 1/62 }] := by
    unfold HybridSearchStrategy.addScore
    rw [if_pos (by decide)]
  rw [s3]
  norm_num

theorem round3_sixtyOne_124 : round3 ((1:ℝ) / 62 / (2 / 61)) = 492 / 1000 := by
  have harg : ((1:ℝ) / 62 / (2 / 61)) = 61 / 124 := by norm_num
  rw [harg]
  have h := round3_eq_of_bounds ((61:ℝ) / 124) 492 (by norm_num) (by norm_num)
  rw [h]
  norm_num

/-- C3: the claim as stated is false in its final clause.  With sub-results
`[a, b]` (bm25) and `[a]` (embedding) and `k = 60`, the fused scores are
`a ↦ 2/61` (rank 0 in both) and `b ↦ 1/62`; the claim predicts returned
scores `[1, (1/62)/(2/61)]`, but the code rounds each quotient to three
decimals and returns `[1, 0.492]`, and `0.492 ≠ (1/62)/(2/61) = 61/124`. -/
theorem c3_counterexample :
    (HybridSearchStrategy.reciprocalRankFusion 60 [refA, refB] [refA2]).map
        (fun r => r.score) = [1, 492 / 1000] ∧
    (492 / 1000 : ℝ) ≠ 1 / 62 / (2 / 61) := by
  constructor
  · unfold HybridSearchStrategy.reciprocalRankFusion
    rw [fusedEntries_example]
    have hsort : sortDescBy (fun e : FusedEntry => e.score)
        [{ tool := refA, score := (2:ℝ) / 61 }, { tool := refB, score := (1:ℝ) / 62 }] =
        [{ tool := refA, score := (2:ℝ) / 61 }, { tool := refB, score := (1:ℝ) / 62 }] := by
      simp only [sortDescBy, insertDescBy]
      rw [if_pos (by norm_num : (1:ℝ) / 62 < 2 / 61)]
    rw [hsort]
    simp only [List.map_cons, List.map_nil]
    have hA : round3 ((2:ℝ) / 61 / (2 / 61)) = 1 := by
      rw [div_self (by norm_num : ((2:ℝ) / 61) ≠ 0)]
      exact round3_one
    rw [hA, round3_sixtyOne_124]
  · intro hcontra
    have : ((1:ℝ) / 62 / (2 / 61)) = 61 / 124 := by norm_num
    rw [this] at hcontra
    norm_num at hcontra

/-- C3 witness: the amended fusion theorem instantiated at the default
`k = 60` with name-distinct sub-result lists. -/
theorem c3_rrf_fused_scores_witness :
    0 < (60:ℝ) ∧
    (([refA, refB].map (fun r => r.name)).Nodup ∧ ([refA2].map (fun r => r.name)).Nodup) ∧
    ((∀ e ∈ HybridSearchStrategy.fusedEntries 60 [refA, refB] [refA2],
      e.score = rrfContribution 60 [refA, refB] e.tool.name +
        rrfContribution 60 [refA2] e.tool.name) ∧
    (∀ a t1 b t2, [refA, refB] = a :: t1 → [refA2] = b :: t2 → b.name = a.name →
      ∃ e ∈ HybridSearchStrategy.fusedEntries 60 [refA, refB] [refA2],
        e.tool.name = a.name ∧ e.score = 2 / (60 + 1)) ∧
    sortedDesc (HybridSearchStrategy.reciprocalRankFusion 60 [refA, refB] [refA2]) ∧
    (∀ M, ((HybridSearchStrategy.fusedEntries 60 [refA, refB] [refA2]).map
        (fun e => e.score)).maximum = some M →
      ∀ r ∈ HybridSearchStrategy.reciprocalRankFusion 60 [refA, refB] [refA2],
        r.score = round3 ((rrfContribution 60 [refA, refB] r.name +
          rrfContribution 60 [refA2] r.name) / M))) := by
  have hn1 : ([refA, refB].map (fun r => r.name)).Nodup := by
    have h : [refA, refB].map (fun r => r.name) = ["a", "b"] := rfl
    rw [h]
    decide
  have hn2 : ([refA2].map (fun r => r.name)).Nodup := by
    have h : [refA2].map (fun r => r.name) = ["a"] := rfl
    rw [h]
    decide
  exact ⟨by norm_num, ⟨hn1, hn2⟩,
    c3_rrf_fused_scores 60 [refA, refB] [refA2] (by norm_num) hn1 hn2⟩

/-! ### Index regeneration detection
(`packages/mcp/src/utils/index-regeneration.ts`).  The file reads
(`existsSync`, `IndexStorage.load`) are summarised by an `IndexLoad` input;
the current config fingerprints (computed by external file hashing in
`config-fingerprint.ts`) and the current CLI version are inputs. -/

/-- `ConfigFingerprint`: `{ exists: false }` or `{ exists: true, hash }`. -/
inductive ConfigFingerprint where
  | absent : ConfigFingerprint
  | present (hash : String) : ConfigFingerprint
deriving DecidableEq, Repr

/-- Per-scope fingerprints (each field optional in the stored metadata). -/
structure Fingerprints where
  localFp : Option ConfigFingerprint := none
  projectFp : Option ConfigFingerprint := none
  userFp : Option ConfigFingerprint := none
deriving DecidableEq, Repr

/-- `CurrentArgs` / `buildMetadata.cliArgs`. -/
structure CurrentArgs where
  mode : Option String := none
  provider : Option String := none
  dtype : Option String := none
  exclude : Option (List String) := none
deriving DecidableEq, Repr

/-- `PersistedIndex.buildMetadata`. -/
structure BuildMetadata where
  cliVersion : String
  cliArgs : CurrentArgs
  configFingerprints : Fingerprints
deriving DecidableEq, Repr

/-- The result of loading the index file: missing, corrupt, or loaded with
its (possibly absent) build metadata. -/
inductive IndexLoad where
  | missing : IndexLoad
  | corrupted (msg : String) : IndexLoad
  | loaded (buildMetadata : Option BuildMetadata) : IndexLoad

structure RegenerationResult where
  needsRebuild : Bool
  reasons : List String
deriving DecidableEq, Repr

/-- JS `value || 'default'` on an optional string (`''` is falsy). -/
def orDefault (o : Option String) : String :=
  match o with
  | none => "default"
  | some s => if s = "" then "default" else s

/-- JS `exclude?.join(', ') || 'none'` (an empty join is falsy). -/
def joinOrNone (o : Option (List String)) : String :=
  match o with
  | none => "none"
  | some l =>
    let j := String.intercalate ", " l
    if j = "" then "none" else j

/-- JS `Array.prototype.sort()` on strings (`.slice().sort()`); any total
order yields the multiset comparison the code relies on. -/
def sortStrings (l : List String) : List String :=
  List.insertionSort (fun a b => a ≤ b) l

/-- `stored?.exists ?? false`. -/
def fingerprintExists (o : Option ConfigFingerprint) : Bool :=
  match o with
  | some (.present _) => true
  | _ => false

/-- The reasons contributed by one scope of condition 6. -/
def configReason (scopeName : String) (stored current : Option ConfigFingerprint) :
    List String :=
  let storedExists := fingerprintExists stored
  let currentExists := fingerprintExists current
  if currentExists ≠ storedExists then
    ["Config " ++ (scopeName ++ (": " ++ (if storedExists then "removed" else "added")))]
  else
    match current, stored with
    | some (.present hc), some (.present hs) =>
      if hc ≠ hs then ["Config " ++ (scopeName ++ ": content changed")] else []
    | _, _ => []

/-- Conditions 4–6 of `checkIndexRegeneration`: the collected reasons. -/
def checkReasons (currentVersion : String) (meta : BuildMetadata)
    (currentArgs : CurrentArgs) (currentFps : Fingerprints) : List String :=
  (if meta.cliVersion ≠ currentVersion then
    ["CLI version changed: " ++ (meta.cliVersion ++ (" → " ++ currentVersion))] else []) ++
  (if meta.cliArgs.mode ≠ currentArgs.mode then
    ["Search mode changed: " ++ (orDefault meta.cliArgs.mode ++
      (" → " ++ orDefault currentArgs.mode))] else []) ++
  (if meta.cliArgs.provider ≠ currentArgs.provider then
    ["Embedding provider changed: " ++ (orDefault meta.cliArgs.provider ++
      (" → " ++ orDefault currentArgs.provider))] else []) ++
  (if meta.cliArgs.dtype ≠ currentArgs.dtype then
    ["Model dtype changed: " ++ (orDefault meta.cliArgs.dtype ++
      (" → " ++ orDefault currentArgs.dtype))] else []) ++
  (if sortStrings (meta.cliArgs.exclude.getD []) ≠
      sortStrings (currentArgs.exclude.getD []) then
    ["Excluded servers changed: " ++ (joinOrNone meta.cliArgs.exclude ++
      (" → " ++ joinOrNone currentArgs.exclude))] else []) ++
  configReason "local" meta.configFingerprints.localFp currentFps.localFp ++
  configReason "project" meta.configFingerprints.projectFp currentFps.projectFp ++
  configReason "user" meta.configFingerprints.userFp currentFps.userFp

/-- `checkIndexRegeneration` (index-regeneration.ts lines 44–135). -/
def checkIndexRegeneration (load : IndexLoad) (currentVersion : String)
    (currentArgs : CurrentArgs) (currentFps : Fingerprints) : RegenerationResult :=
  match load with
  | .missing => { needsRebuild := true, reasons := ["Index file not found"] }
  | .corrupted msg =>
    { needsRebuild := true, reasons := ["Index file corrupted or invalid: " ++ msg] }
  | .loaded none =>
    { needsRebuild := true, reasons := ["Index missing build metadata (legacy format)"] }
  | .loaded (some meta) =>
    let reasons := checkReasons currentVersion meta currentArgs currentFps
    { needsRebuild := reasons.length > 0, reasons := reasons }

/-- A reason produced by the exclude-list comparison ("Excluded servers
changed: … → …"). -/
def isExcludeReason (r : String) : Bool :=
  "Excluded servers changed".data.isPrefixOf r.data

theorem sortStrings_eq_iff (a b : List String) :
    sortStrings a = sortStrings b ↔ a.Perm b := by
  constructor
  · intro h
    have ha := List.perm_insertionSort (fun x y : String => x ≤ y) a
    have hb := List.perm_insertionSort (fun x y : String => x ≤ y) b
    exact (ha.symm.trans (h ▸ hb : List.Perm (sortStrings a) b) : _)
  · intro h
    exact List.eq_of_perm_of_sorted
      ((List.perm_insertionSort _ a).trans
        (h.trans (List.perm_insertionSort _ b).symm))
      (List.sorted_insertionSort _ a) (List.sorted_insertionSort _ b)

theorem countP_if_single_zero {p : String → Bool} (c : Prop) [Decidable c]
    (m : String) (h : p m = false) :
    (if c then [m] else []).countP p = 0 := by
  split
  · simp [List.countP_cons, h]
  · simp

theorem countP_configReason (scopeName : String) (s c : Option ConfigFingerprint) :
    (configReason scopeName s c).countP (fun r => isExcludeReason r) = 0 := by
  have hadd : isExcludeReason ("Config " ++ (scopeName ++ ": added")) = false := rfl
  have hrem : isExcludeReason ("Config " ++ (scopeName ++ ": removed")) = false := rfl
  have hchg : isExcludeReason ("Config " ++ (scopeName ++ ": content changed")) = false := rfl
  rcases s with _ | (_ | hs) <;> rcases c with _ | (_ | hc) <;>
    simp only [configReason, fingerprintExists, ne_eq] <;>
    split_ifs <;>
    simp_all [List.countP_cons, List.countP_nil]

/-- C6: `checkIndexRegeneration` compares the stored and current exclude
lists as sorted multisets: when the two exclude lists (an absent list read
as the empty list) are permutations of one another no "Excluded servers
changed" reason is produced, and when they are not permutations of one
another exactly one such reason is produced. -/
theorem c6_exclude_sorted_multiset (v : String) (meta : BuildMetadata)
    (args : CurrentArgs) (fps : Fingerprints) :
    ((checkIndexRegeneration (.loaded (some meta)) v args fps).reasons.countP
        (fun r => isExcludeReason r)) =
      if (meta.cliArgs.exclude.getD []).Perm (args.exclude.getD []) then 0 else 1 := by
  have h1 : isExcludeReason ("CLI version changed: " ++
      (meta.cliVersion ++ (" → " ++ v))) = false := rfl
  have h2 : isExcludeReason ("Search mode changed: " ++
      (orDefault meta.cliArgs.mode ++ (" → " ++ orDefault args.mode))) = false := rfl
  have h3 : isExcludeReason ("Embedding provider changed: " ++
      (orDefault meta.cliArgs.provider ++ (" → " ++ orDefault args.provider))) = false := rfl
  have h4 : isExcludeReason ("Model dtype changed: " ++
      (orDefault meta.cliArgs.dtype ++ (" → " ++ orDefault args.dtype))) = false := rfl
  have h5 : isExcludeReason ("Excluded servers changed: " ++
      (joinOrNone meta.cliArgs.exclude ++ (" → " ++ joinOrNone args.exclude))) = true := rfl
  show (checkReasons v meta args fps).countP (fun r => isExcludeReason r) = _
  unfold checkReasons
  rw [List.countP_append, List.countP_append, List.countP_append,
    List.countP_append, List.countP_append, List.countP_append,
    List.countP_append]
  rw [countP_if_single_zero _ _ h1, countP_if_single_zero _ _ h2,
    countP_if_single_zero _ _ h3, countP_if_single_zero _ _ h4,
    countP_configReason, countP_configReason, countP_configReason]
  by_cases hp : (meta.cliArgs.exclude.getD []).Perm (args.exclude.getD [])
  · rw [if_pos hp,
      if_neg (not_not_intro ((sortStrings_eq_iff _ _).mpr hp))]
    simp
  · rw [if_neg hp,
      if_pos (fun h => hp ((sortStrings_eq_iff _ _).mp h))]
    simp [List.countP_cons, h5]

/-! ### OAuth token storage
(`packages/mcp/src/utils/oauth/token-storage.ts`, types in
`oauth/types.ts`).  The filesystem is a finite-support map from paths to
parsed session files, the MD5 server hash is an input function, and
`Date.now()` is an explicit `now` parameter. -/

structure OAuthClientInfo where
  client_id : String
  client_secret : Option String
deriving DecidableEq, Repr

structure OAuthTokenResponse where
  access_token : String
  token_type : String
  expires_in : Option ℤ
  refresh_token : Option String
  scope : Option String
deriving DecidableEq, Repr

structure OAuthSession where
  clientInfo : OAuthClientInfo
  tokens : OAuthTokenResponse
  expiresAt : Option ℤ
deriving DecidableEq, Repr

/-- A `TokenStorage` instance together with its external effects. -/
structure TokenStorage where
  configDir : String
  hashFn : String → String
  files : String → Option OAuthSession

/-- `join(this.configDir, 'tokens', hash + '.json')`. -/
def TokenStorage.getTokenPath (st : TokenStorage) (serverUrl : String) : String :=
  st.configDir ++ ("/tokens/" ++ (st.hashFn serverUrl ++ ".json"))

/-- The JS guard `session.expiresAt && Date.now() >= session.expiresAt`
(an `expiresAt` of `0` is falsy, so it never triggers the guard). -/
def jsExpiryHit (expiresAt : Option ℤ) (now : ℤ) : Bool :=
  match expiresAt with
  | some e => decide (e ≠ 0) && decide (now ≥ e)
  | none => false

/-- `TokenStorage.loadSession` (token-storage.ts lines 63–84). -/
def TokenStorage.loadSession (st : TokenStorage) (now : ℤ) (serverUrl : String)
    (includeExpired : Bool) : Option OAuthSession :=
  match st.files (st.getTokenPath serverUrl) with
  | none => none
  | some session =>
    if !includeExpired && jsExpiryHit session.expiresAt now then none
    else some session

/-- `TokenStorage.saveSession` (lines 89–94): writes the session file. -/
def TokenStorage.saveSession (st : TokenStorage) (serverUrl : String)
    (session : OAuthSession) : TokenStorage :=
  { st with files := Function.update st.files (st.getTokenPath serverUrl) (some session) }

/-- `TokenStorage.updateTokens` (lines 99–111); `tokens.expires_in ? ... :
undefined` treats `0` as falsy. -/
def TokenStorage.updateTokens (st : TokenStorage) (now : ℤ) (serverUrl : String)
    (tokens : OAuthTokenResponse) : Except String TokenStorage :=
  match st.loadSession now serverUrl false with
  | none => .error "No session found to update"
  | some session =>
    .ok (st.saveSession serverUrl
      { session with
        tokens := tokens
        expiresAt := match tokens.expires_in with
          | some n => if n ≠ 0 then some (now + n * 1000) else none
          | none => none })

theorem jsExpiryHit_eq_true_iff (o : Option ℤ) (now : ℤ) :
    jsExpiryHit o now = true ↔ ∃ e, o = some e ∧ e ≠ 0 ∧ e ≤ now := by
  cases o with
  | none => simp [jsExpiryHit]
  | some e => simp [jsExpiryHit, ge_iff_le, and_assoc]

theorem jsExpiryHit_eq_false_iff (o : Option ℤ) (now : ℤ) :
    jsExpiryHit o now = false ↔
      o = none ∨ o = some 0 ∨ ∃ e, o = some e ∧ now < e := by
  cases o with
  | none => simp [jsExpiryHit]
  | some e =>
    simp only [jsExpiryHit, Bool.and_eq_false_iff, decide_eq_false_iff_not,
      not_not, not_le, ge_iff_le, Option.some.injEq, reduceCtorEq, false_or]
    constructor
    · rintro (h0 | hlt)
      · exact Or.inl h0
      · exact Or.inr ⟨e, rfl, hlt⟩
    · rintro (h0 | ⟨e', he', hlt⟩)
      · exact Or.inl h0
      · cases he'
        exact Or.inr hlt

theorem loadSession_saveSession_self (st : TokenStorage) (now : ℤ) (url : String)
    (s : OAuthSession) (inc : Bool) :
    (st.saveSession url s).loadSession now url inc =
      if !inc && jsExpiryHit s.expiresAt now then none else some s := by
  unfold TokenStorage.loadSession TokenStorage.saveSession TokenStorage.getTokenPath
  simp [Function.update_same]

/-- C8 (corrected): after `saveSession(url, s)`, `loadSession(url,
includeExpired := true)` returns `s` unconditionally, and plain
`loadSession(url)` returns `s` iff `s.expiresAt` is absent, **zero** (a falsy
epoch that escapes the expiry guard), or strictly in the future. -/
theorem c8_save_load (st : TokenStorage) (now : ℤ) (url : String) (s : OAuthSession) :
    (st.saveSession url s).loadSession now url true = some s ∧
      ((st.saveSession url s).loadSession now url false = some s ↔
        (s.expiresAt = none ∨ s.expiresAt = some 0 ∨
          ∃ e, s.expiresAt = some e ∧ now < e)) := by
  refine ⟨?_, ?_⟩
  · rw [loadSession_saveSession_self]
    simp
  · rw [loadSession_saveSession_self]
    simp only [Bool.not_false, Bool.true_and]
    cases hjs : jsExpiryHit s.expiresAt now with
    | false =>
      rw [if_neg (by simp [hjs])]
      exact iff_of_true rfl ((jsExpiryHit_eq_false_iff _ _).mp hjs)
    | true =>
      rw [if_pos (by simp [hjs])]
      refine iff_of_false (by simp) (fun hr => ?_)
      exact Bool.noConfusion
        (hjs.symm.trans ((jsExpiryHit_eq_false_iff s.expiresAt now).mpr hr))

def c8_state : TokenStorage :=
  { configDir := "cfg", hashFn := fun _ => "h", files := fun _ => none }

def c8_client : OAuthClientInfo :=
  { client_id := "id", client_secret := none }

def c8_tokens : OAuthTokenResponse :=
  { access_token := "at", token_type := "bearer",
    expires_in := none, refresh_token := none, scope := none }

def c8_session : OAuthSession :=
  { clientInfo := c8_client, tokens := c8_tokens, expiresAt := some 0 }

/-- C8 counterexample: a saved session with `expiresAt = 0` is in the past at
`now = 1` (neither absent nor in the future), yet `loadSession` without
`includeExpired` still returns it, because the JS guard
`session.expiresAt && ...` treats the epoch `0` as falsy. -/
theorem c8_counterexample :
    (c8_state.saveSession "u" c8_session).loadSession 1 "u" false = some c8_session ∧
      ¬ (c8_session.expiresAt = none ∨
          ∃ e, c8_session.expiresAt = some e ∧ (1:ℤ) < e) := by
  refine ⟨by decide, ?_⟩
  rintro (h | ⟨e, he, hlt⟩)
  · exact Option.noConfusion (show some (0:ℤ) = none from h)
  · have he0 : e = 0 := (Option.some.inj (show some (0:ℤ) = some e from he)).symm
    omega

theorem loadSession_eq_none_iff (st : TokenStorage) (now : ℤ) (url : String) :
    st.loadSession now url false = none ↔
      (st.files (st.getTokenPath url) = none ∨
        ∃ s e, st.files (st.getTokenPath url) = some s ∧ s.expiresAt = some e ∧
          e ≠ 0 ∧ e ≤ now) := by
  unfold TokenStorage.loadSession
  cases hf : st.files (st.getTokenPath url) with
  | none => simp
  | some s =>
    simp only [Bool.not_false, Bool.true_and]
    constructor
    · intro h
      rcases Bool.eq_false_or_eq_true (jsExpiryHit s.expiresAt now) with hjs | hjs
      · obtain ⟨e, he, h0, hle⟩ := (jsExpiryHit_eq_true_iff _ _).mp hjs
        exact Or.inr ⟨s, e, rfl, he, h0, hle⟩
      · rw [if_neg (by simp [hjs])] at h
        exact absurd h (by simp)
    · rintro (h | ⟨s', e, hs', he, h0, hle⟩)
      · exact Option.noConfusion h
      · obtain rfl : s = s' := Option.some.inj hs'
        rw [if_pos (by
          simp [(jsExpiryHit_eq_true_iff s.expiresAt now).mpr ⟨e, he, h0, hle⟩])]

def c10_client : OAuthClientInfo :=
  { client_id := "id", client_secret := none }

def c10_oldTokens : OAuthTokenResponse :=
  { access_token := "at", token_type := "bearer",
    expires_in := none, refresh_token := none, scope := none }

def c10_session : OAuthSession :=
  { clientInfo := c10_client, tokens := c10_oldTokens, expiresAt := some 0 }

def c10_tokens : OAuthTokenResponse :=
  { access_token := "at2", token_type := "bearer",
    expires_in := some 3600, refresh_token := none, scope := none }

def c10_state : TokenStorage :=
  { configDir := "cfg", hashFn := fun _ => "h",
    files := fun p => if p = "cfg/tokens/h.json" then some c10_session else none }

/-- C10 (corrected): `updateTokens` throws "No session found to update"
exactly when the reload without `includeExpired` misses: either no session
file exists, or the stored session's `expiresAt` is a **nonzero** epoch that
is at or before `now`.  A falsy stored `expiresAt = 0` escapes the expiry
guard even though it lies in the past. -/
theorem c10_updateTokens_error_iff (st : TokenStorage) (now : ℤ) (url : String)
    (tokens : OAuthTokenResponse) :
    st.updateTokens now url tokens = .error "No session found to update" ↔
      (st.files (st.getTokenPath url) = none ∨
        ∃ s e, st.files (st.getTokenPath url) = some s ∧ s.expiresAt = some e ∧
          e ≠ 0 ∧ e ≤ now) := by
  rw [← loadSession_eq_none_iff st now url]
  unfold TokenStorage.updateTokens
  cases h : st.loadSession now url false with
  | none => simp
  | some s => simp

/-- C10 counterexample: the stored session's `expiresAt` (the epoch `0`) lies
in the past at `now = 5`, yet `updateTokens` succeeds instead of throwing
"No session found to update", so refreshed tokens for this expired session
ARE persisted. -/
theorem c10_counterexample :
    c10_session.expiresAt = some 0 ∧ (0:ℤ) < 5 ∧
      (c10_state.updateTokens 5 "u" c10_tokens).isOk = true := by
  refine ⟨rfl, by norm_num, by decide⟩

/-! ### CLI usage templates (`packages/mcp/src/utils/cli-usage.ts`).
JS `Record<string, string>` objects built by inserting one key per required
field are modelled as insertion-ordered association lists; enum members are
taken as their joined string forms. -/

/-- The type-based `switch` of `getPlaceholder` (cli-usage.ts lines 81–95);
the JS `switch` compares the type tag by strict equality, with `default`
returning `<value>`. -/
def typePlaceholder (ty : Option String) : String :=
  if ty = some "string" then "<string>"
  else if ty = some "number" then "<number>"
  else if ty = some "integer" then "<number>"
  else if ty = some "boolean" then "<true|false>"
  else if ty = some "array" then "<array>"
  else if ty = some "object" then "<object>"
  else "<value>"

/-- `getPlaceholder` (cli-usage.ts lines 71–96): an absent property yields
`<value>`; a present nonempty `enum` short-circuits the type switch. -/
def getPlaceholder (prop : Option JsonSchemaProperty) : String :=
  match prop with
  | none => "<value>"
  | some p =>
    match p.enumVals with
    | some vs =>
      if 0 < vs.length then
        "<" ++ (String.intercalate "|" (vs.take 3) ++
          ((if 3 < vs.length then "|..." else "") ++ ">"))
      else typePlaceholder p.type
    | none => typePlaceholder p.type

/-- `buildExampleArgs` (cli-usage.ts lines 33–44): one placeholder entry per
required field, looked up in the `properties` record. -/
def buildExampleArgs (tool : ToolDefinition) : List (String × String) :=
  let properties := tool.inputSchema.properties.getD []
  let requiredFields := tool.inputSchema.required.getD []
  requiredFields.map (fun field =>
    (field, getPlaceholder ((properties.find? (fun kv => kv.fst == field)).map Prod.snd)))

/-- C9 (corrected): the example args contain exactly the required fields, in
order, each mapped through `getPlaceholder` on its property; a nonempty enum
renders as its first three values joined by `|` in angle brackets with
`|...` appended when more than three exist; otherwise the type drives the
placeholder, with `string → <string>`, `number`/`integer → <number>`,
`boolean → <true|false>`, but also `array → <array>` and
`object → <object>`; only the remaining shapes (and an absent property)
yield `<value>`. -/
theorem c9_cli_usage_placeholders (tool : ToolDefinition) (tyE : Option String)
    (v : String) (vs : List String) (ty : Option String) (e : Option (List String))
    (hty : ty ≠ some "string" ∧ ty ≠ some "number" ∧ ty ≠ some "integer" ∧
      ty ≠ some "boolean" ∧ ty ≠ some "array" ∧ ty ≠ some "object")
    (he : e = none ∨ e = some []) :
    (buildExampleArgs tool).map Prod.fst = tool.inputSchema.required.getD [] ∧
    buildExampleArgs tool = (tool.inputSchema.required.getD []).map (fun field =>
      (field, getPlaceholder
        (((tool.inputSchema.properties.getD []).find? (fun kv => kv.fst == field)).map
          Prod.snd))) ∧
    getPlaceholder (some { type := tyE, enumVals := some (v :: vs) }) =
      "<" ++ (String.intercalate "|" ((v :: vs).take 3) ++
        ((if 3 < (v :: vs).length then "|..." else "") ++ ">")) ∧
    getPlaceholder (some { type := some "string", enumVals := e }) = "<string>" ∧
    getPlaceholder (some { type := some "number", enumVals := e }) = "<number>" ∧
    getPlaceholder (some { type := some "integer", enumVals := e }) = "<number>" ∧
    getPlaceholder (some { type := some "boolean", enumVals := e }) = "<true|false>" ∧
    getPlaceholder (some { type := some "array", enumVals := e }) = "<array>" ∧
    getPlaceholder (some { type := some "object", enumVals := e }) = "<object>" ∧
    getPlaceholder (some { type := ty, enumVals := e }) = "<value>" ∧
    getPlaceholder none = "<value>" := by
  obtain ⟨h1, h2, h3, h4, h5, h6⟩ := hty
  refine ⟨?_, rfl, ?_, ?_, ?_, ?_, ?_, ?_, ?_, ?_, rfl⟩
  · simp [buildExampleArgs, Function.comp_def]
  · simp [getPlaceholder]
  all_goals rcases he with rfl | rfl
  all_goals simp [getPlaceholder, typePlaceholder, h1, h2, h3, h4, h5, h6]

def c9w_prop : JsonSchemaProperty := { type := some "string", enumVals := none }

def c9w_schema : CliUsageJsonSchema :=
  { properties := some [("q", c9w_prop)], required := some ["q"] }

def c9w_tool : ToolDefinition :=
  { name := "t", title := none, description := "", inputSchema := c9w_schema }

theorem c9_cli_usage_placeholders_witness :
    ((some "null" : Option String) ≠ some "string" ∧
      (some "null" : Option String) ≠ some "number" ∧
      (some "null" : Option String) ≠ some "integer" ∧
      (some "null" : Option String) ≠ some "boolean" ∧
      (some "null" : Option String) ≠ some "array" ∧
      (some "null" : Option String) ≠ some "object") ∧
    ((buildExampleArgs c9w_tool).map Prod.fst = c9w_tool.inputSchema.required.getD [] ∧
    buildExampleArgs c9w_tool = (c9w_tool.inputSchema.required.getD []).map (fun field =>
      (field, getPlaceholder
        (((c9w_tool.inputSchema.properties.getD []).find? (fun kv => kv.fst == field)).map
          Prod.snd))) ∧
    getPlaceholder (some { type := some "x", enumVals := some ("a" :: []) }) =
      "<" ++ (String.intercalate "|" (("a" :: []).take 3) ++
        ((if 3 < ("a" :: []).length then "|..." else "") ++ ">")) ∧
    getPlaceholder (some { type := some "string", enumVals := none }) = "<string>" ∧
    getPlaceholder (some { type := some "number", enumVals := none }) = "<number>" ∧
    getPlaceholder (some { type := some "integer", enumVals := none }) = "<number>" ∧
    getPlaceholder (some { type := some "boolean", enumVals := none }) = "<true|false>" ∧
    getPlaceholder (some { type := some "array", enumVals := none }) = "<array>" ∧
    getPlaceholder (some { type := some "object", enumVals := none }) = "<object>" ∧
    getPlaceholder (some { type := some "null", enumVals := none }) = "<value>" ∧
    getPlaceholder none = "<value>") :=
  ⟨by decide, c9_cli_usage_placeholders c9w_tool (some "x") "a" [] (some "null") none
    (by decide) (Or.inl rfl)⟩

def c9_prop : JsonSchemaProperty := { type := some "array", enumVals := none }

def c9_schema : CliUsageJsonSchema :=
  { properties := some [("a", c9_prop)], required := some ["a"] }

def c9_tool : ToolDefinition :=
  { name := "t", title := none, description := "", inputSchema := c9_schema }

/-- C9 counterexample: a required property of type "array" is rendered as
"<array>" (and an "object" one as "<object>"), not as "<value>" as the
claim's "any other shape → <value>" clause requires. -/
theorem c9_counterexample :
    buildExampleArgs c9_tool = [("a", "<array>")] ∧
      getPlaceholder (some c9_prop) ≠ "<value>" ∧
      getPlaceholder (some { type := some "object", enumVals := none }) ≠ "<value>" := by
  refine ⟨by decide, by decide, by decide⟩
